import Mathlib

set_option linter.unusedSectionVars false

/-!
# Verification of `feap` — a simple Fibonacci-like heap

This file is a shallow embedding, in Lean 4, of the Rust crate `feap`
(`src/feap.rs`): a priority queue built from a single pointer-linked tree
with naive/fair linking, binary-counter consolidation on `delete_min`, and
a lazy mark-based rank cascade on `decrease_key`.

Two models are developed, both translated directly from the source:

* **Ownership-tree model** (`Node`, `Feap`): in the Rust code every node is
  owned through the `first_child`/`next` chain reachable from `root`
  (`parent`/`prev` are non-owning back-references used only for traversal),
  so the owned structure is a rose tree.  Each node carries an `id`
  modelling its heap address (`Box::leak` produces pairwise distinct
  addresses, modelled by the `nextId` allocation counter).  A live node is
  designated by the list of child indices leading to it from the root —
  the functional counterpart of the `Entry` handle's node pointer.
  The `nodes: HashMap<K, HashSet<NodePtr>>` index is modelled flattened,
  as the finite set of (key, address) pairs it contains (keys mapped to
  empty sets contribute nothing and are unobservable in the flattening).

* **Pointer model** (`PNode`, `PMem`): a memory `Nat → Option PNode` where
  every link field (`parent`, `first_child`, `prev`, `next`) is an explicit
  `Option Nat`.  This model is used for the claims that are specifically
  about the back-pointer fields (`parent` maintenance in `add_child`,
  `unlink`, and promotion to root), which the ownership tree elides.
-/

namespace Feap

/-- A node of the heap tree, translated from `struct Node<K, V>` in
`src/feap.rs`.  `id` models the node's address; `children` is the list of
nodes owned through the `first_child`/`next` chain, head first. -/
inductive Node (K V : Type) : Type where
  | mk (id : Nat) (key : K) (val : V) (rank : Nat) (isMarked : Bool)
       (children : List (Node K V)) : Node K V

variable {K V : Type}

/-- The `id` field (modelled address). -/
def Node.id : Node K V → Nat
  | .mk i _ _ _ _ _ => i

/-- The `key` field. -/
def Node.key : Node K V → K
  | .mk _ k _ _ _ _ => k

/-- The `val` field. -/
def Node.val : Node K V → V
  | .mk _ _ v _ _ _ => v

/-- The `rank` field. -/
def Node.rank : Node K V → Nat
  | .mk _ _ _ r _ _ => r

/-- The `is_marked` field. -/
def Node.isMarked : Node K V → Bool
  | .mk _ _ _ _ m _ => m

/-- The child list (the `first_child`/`next` chain, head first). -/
def Node.children : Node K V → List (Node K V)
  | .mk _ _ _ _ _ cs => cs

@[simp] theorem Node.id_mk (i : Nat) (k : K) (v : V) (r m cs) :
    (Node.mk i k v r m cs).id = i := rfl

@[simp] theorem Node.key_mk (i : Nat) (k : K) (v : V) (r m cs) :
    (Node.mk i k v r m cs).key = k := rfl

@[simp] theorem Node.val_mk (i : Nat) (k : K) (v : V) (r m cs) :
    (Node.mk i k v r m cs).val = v := rfl

@[simp] theorem Node.rank_mk (i : Nat) (k : K) (v : V) (r m cs) :
    (Node.mk i k v r m cs).rank = r := rfl

@[simp] theorem Node.isMarked_mk (i : Nat) (k : K) (v : V) (r m cs) :
    (Node.mk i k v r m cs).isMarked = m := rfl

@[simp] theorem Node.children_mk (i : Nat) (k : K) (v : V) (r m cs) :
    (Node.mk i k v r m cs).children = cs := rfl

theorem Node.eta (n : Node K V) :
    Node.mk n.id n.key n.val n.rank n.isMarked n.children = n := by
  cases n; rfl

mutual

/-- Entries (address, key, value) of all nodes in a tree, root first. -/
def Node.entries : Node K V → List (Nat × K × V)
  | .mk i k v _ _ cs => (i, k, v) :: entriesL cs

/-- Entries of a list of trees, in order. -/
def entriesL : List (Node K V) → List (Nat × K × V)
  | [] => []
  | c :: cs => c.entries ++ entriesL cs

end

@[simp] theorem Node.entries_mk (i : Nat) (k : K) (v : V) (r m cs) :
    (Node.mk i k v r m cs).entries = (i, k, v) :: entriesL cs := by
  rw [Node.entries]

@[simp] theorem entriesL_nil : entriesL ([] : List (Node K V)) = [] := rfl

@[simp] theorem entriesL_cons (c : Node K V) (cs : List (Node K V)) :
    entriesL (c :: cs) = c.entries ++ entriesL cs := rfl

theorem entriesL_append (cs ds : List (Node K V)) :
    entriesL (cs ++ ds) = entriesL cs ++ entriesL ds := by
  induction cs with
  | nil => rfl
  | cons c cs ih => simp [ih]

theorem Node.entries_ne_nil (n : Node K V) : n.entries ≠ [] := by
  cases n; simp

/-! ## Linking primitives (`add_child`, `naive_link`, `fair_link`) -/

/-- `add_child(this, other)`: `other` becomes the head of `this`'s child
list (its `parent`/`prev`/`next` pointer updates are representation-level
and invisible in the ownership tree); returns `this`. -/
def add_child (this other : Node K V) : Node K V :=
  .mk this.id this.key this.val this.rank this.isMarked (other :: this.children)

@[simp] theorem add_child_id (a b : Node K V) : (add_child a b).id = a.id := rfl

@[simp] theorem add_child_key (a b : Node K V) : (add_child a b).key = a.key := rfl

@[simp] theorem add_child_val (a b : Node K V) : (add_child a b).val = a.val := rfl

@[simp] theorem add_child_rank (a b : Node K V) : (add_child a b).rank = a.rank := rfl

@[simp] theorem add_child_children (a b : Node K V) :
    (add_child a b).children = b :: a.children := rfl

theorem add_child_entries (a b : Node K V) :
    (add_child a b).entries.Perm (a.entries ++ b.entries) := by
  cases a with
  | mk i k v r m cs =>
    simp only [add_child, Node.id_mk, Node.key_mk, Node.val_mk, Node.rank_mk,
      Node.isMarked_mk, Node.children_mk, Node.entries_mk, entriesL_cons]
    refine List.Perm.cons _ ?_
    exact List.perm_append_comm

variable [LinearOrder K]

/-- `naive_link`: the node with the smaller key wins and absorbs the other
as its new first child; on equal keys the second argument wins. -/
def naive_link (this other : Node K V) : Node K V :=
  if this.key < other.key then add_child this other else add_child other this

/-- `fair_link`: `naive_link`, then increment the winner's rank.  The
source asserts `this.rank == other.rank`; its call site (`delete_min`
consolidation) only pairs nodes drawn from the same rank-table slot. -/
def fair_link (this other : Node K V) : Node K V :=
  let n := naive_link this other
  .mk n.id n.key n.val (n.rank + 1) n.isMarked n.children

theorem naive_link_entries (a b : Node K V) :
    (naive_link a b).entries.Perm (a.entries ++ b.entries) := by
  rw [naive_link]
  split
  · exact add_child_entries a b
  · exact (add_child_entries b a).trans List.perm_append_comm

theorem fair_link_entries (a b : Node K V) :
    (fair_link a b).entries.Perm (a.entries ++ b.entries) := by
  have h : (fair_link a b).entries = (naive_link a b).entries := by
    rw [fair_link]
    cases h : naive_link a b with
    | mk i k v r m cs => simp
  rw [h]
  exact naive_link_entries a b

@[simp] theorem naive_link_key (a b : Node K V) :
    (naive_link a b).key = min a.key b.key := by
  rw [naive_link]
  split
  · simp only [add_child_key]
    exact (min_eq_left (le_of_lt (by assumption))).symm
  · simp only [add_child_key]
    exact (min_eq_right (le_of_not_lt (by assumption))).symm

/-- Heap order: every node's key is less than or equal to the keys of all
its children, recursively (spec invariant I1). -/
inductive HeapOrd : Node K V → Prop where
  | mk {i : Nat} {k : K} {v : V} {r : Nat} {m : Bool} {cs : List (Node K V)} :
      (∀ c ∈ cs, k ≤ c.key) → (∀ c ∈ cs, HeapOrd c) →
      HeapOrd (Node.mk i k v r m cs)

theorem HeapOrd.children_le {n : Node K V} (h : HeapOrd n) :
    ∀ c ∈ n.children, n.key ≤ c.key := by
  cases h with
  | mk hle _ => simpa using hle

theorem HeapOrd.children_ord {n : Node K V} (h : HeapOrd n) :
    ∀ c ∈ n.children, HeapOrd c := by
  cases h with
  | mk _ hord => simpa using hord

theorem HeapOrd.of_fields {n : Node K V}
    (hle : ∀ c ∈ n.children, n.key ≤ c.key)
    (hord : ∀ c ∈ n.children, HeapOrd c) : HeapOrd n := by
  cases n with
  | mk i k v r m cs => exact HeapOrd.mk (by simpa using hle) (by simpa using hord)

/-- A node's mark and rank are irrelevant to heap order. -/
theorem heapOrd_remk {i : Nat} {k : K} {v : V} {r r' : Nat} {m m' : Bool}
    {cs : List (Node K V)}
    (h : HeapOrd (Node.mk i k v r m cs)) : HeapOrd (Node.mk i k v r' m' cs) := by
  cases h with
  | mk hle hord => exact HeapOrd.mk hle hord

theorem heapOrd_add_child {a b : Node K V} (ha : HeapOrd a) (hb : HeapOrd b)
    (hk : a.key ≤ b.key) : HeapOrd (add_child a b) := by
  refine HeapOrd.of_fields ?_ ?_
  · intro c hc
    simp only [add_child_children, List.mem_cons] at hc
    rcases hc with rfl | hc
    · simpa using hk
    · simpa using ha.children_le c hc
  · intro c hc
    simp only [add_child_children, List.mem_cons] at hc
    rcases hc with rfl | hc
    · exact hb
    · exact ha.children_ord c hc

theorem heapOrd_naive_link {a b : Node K V} (ha : HeapOrd a) (hb : HeapOrd b) :
    HeapOrd (naive_link a b) := by
  rw [naive_link]
  split
  · exact heapOrd_add_child ha hb (le_of_lt (by assumption))
  · exact heapOrd_add_child hb ha (le_of_not_lt (by assumption))

theorem heapOrd_fair_link {a b : Node K V} (ha : HeapOrd a) (hb : HeapOrd b) :
    HeapOrd (fair_link a b) := by
  have h := heapOrd_naive_link ha hb
  rw [fair_link]
  cases hnl : naive_link a b with
  | mk i k v r m cs =>
    rw [hnl] at h
    exact heapOrd_remk h

theorem entriesL_key_bound {cs : List (Node K V)} {k : K}
    (hle : ∀ c ∈ cs, k ≤ c.key)
    (hrec : ∀ c ∈ cs, ∀ e ∈ c.entries, c.key ≤ e.2.1) :
    ∀ e ∈ entriesL cs, k ≤ e.2.1 := by
  induction cs with
  | nil => simp
  | cons c cs ih =>
    intro e he
    simp only [entriesL_cons, List.mem_append] at he
    rcases he with he | he
    · exact le_trans (hle c (by simp)) (hrec c (by simp) e he)
    · exact ih (fun c hc => hle c (by simp [hc]))
        (fun c hc => hrec c (by simp [hc])) e he

/-- In a heap-ordered tree the root's key bounds every entry's key. -/
theorem HeapOrd.key_le_entries {n : Node K V} (h : HeapOrd n) :
    ∀ e ∈ n.entries, n.key ≤ e.2.1 := by
  induction h with
  | mk hle _ ih =>
    intro e he
    simp only [Node.entries_mk, List.mem_cons] at he
    rcases he with rfl | he
    · simp
    · simp only [Node.key_mk]
      exact entriesL_key_bound (by simpa using hle)
        (fun c hc => by simpa using ih c (by simpa using hc)) e he

/-! ## Paths: the functional counterpart of node pointers

A live node of the heap is designated by the list of child indices leading
to it from the root, mirroring the node pointer held by a Rust `Entry`. -/

/-- The node reached from `n` by following child indices `p`. -/
def getAt : Node K V → List Nat → Option (Node K V)
  | n, [] => some n
  | n, j :: p =>
    match n.children[j]? with
    | none => none
    | some c => getAt c p

@[simp] theorem getAt_nil (n : Node K V) : getAt n [] = some n := rfl

theorem getAt_cons (n : Node K V) (j : Nat) (p : List Nat) :
    getAt n (j :: p) =
      match n.children[j]? with
      | none => none
      | some c => getAt c p := rfl

/-- Replace the subtree at position `p` by the image under `f` (used for
the in-place key write of `decrease_key`).  Invalid positions leave the
tree unchanged; all uses are guarded by `getAt`. -/
def modifyAt : Node K V → List Nat → (Node K V → Node K V) → Node K V
  | n, [], f => f n
  | n, j :: p, f =>
    match n.children[j]? with
    | none => n
    | some c =>
      .mk n.id n.key n.val n.rank n.isMarked (n.children.set j (modifyAt c p f))

/-- Overwrite the key (the `self.node.as_mut().key = new_key` store). -/
def Node.setKey (k : K) : Node K V → Node K V
  | .mk i _ v r m cs => .mk i k v r m cs

/-- Set the mark bit (the `root.as_mut().is_marked = true` store). -/
def Node.setMark (b : Bool) : Node K V → Node K V
  | .mk i k v r _ cs => .mk i k v r b cs

/-- The mutation `cascade_decrease_rank` applies to a visited unmarked
node: set its mark and decrement its rank, saturating at zero. -/
def Node.cascadeTouch : Node K V → Node K V
  | .mk i k v r _ cs => .mk i k v (r - 1) true cs

/-- `Node::cascade_decrease_rank`, seen from the root: the walk starts at
the node at position `p` and climbs toward the root.  The returned flag
records whether the walk continues past the current node ("recurses into
its parent"): a visited node that is unmarked is touched
(`cascadeTouch`) and the walk continues; a visited marked node stops the
walk unchanged. -/
def cascadeAux : Node K V → List Nat → Node K V × Bool
  | n, [] => if n.isMarked then (n, false) else (n.cascadeTouch, true)
  | n, j :: p =>
    match n.children[j]? with
    | none => (n, false)
    | some c =>
      let r := cascadeAux c p
      let n' := Node.mk n.id n.key n.val n.rank n.isMarked (n.children.set j r.1)
      if r.2 then
        (if n.isMarked then (n', false) else (n'.cascadeTouch, true))
      else (n', false)

/-- `unlink`: detach the subtree at position `p` (which fixes up the
parent's child chain exactly as the sibling-pointer surgery does),
returning the remaining tree and the detached subtree. -/
def removeAt : Node K V → List Nat → Option (Node K V × Node K V)
  | _, [] => none
  | n, [j] =>
    match n.children[j]? with
    | none => none
    | some c =>
      some (.mk n.id n.key n.val n.rank n.isMarked (n.children.eraseIdx j), c)
  | n, j :: p =>
    match n.children[j]? with
    | none => none
    | some c =>
      (removeAt c p).map fun q =>
        (.mk n.id n.key n.val n.rank n.isMarked (n.children.set j q.1), q.2)

/-! ## The heap (`Feap`) and its public operations -/

/-- The heap state, from `struct Feap<K, V>`: the root (at most one
top-level tree), the node count, the flattened key-to-node-set index, and
the allocation counter producing fresh node addresses. -/
structure Heap (K V : Type) where
  root : Option (Node K V)
  len : Nat
  nodes : Finset (K × Nat)
  nextId : Nat

/-- `Feap::new` / `Default::default`. -/
def Heap.new : Heap K V := ⟨none, 0, ∅, 0⟩

/-- `Feap::clear`: swap with a fresh heap (the old nodes are dropped). -/
def Heap.clear (_h : Heap K V) : Heap K V := Heap.new

/-- `Feap::is_empty`. -/
def Heap.isEmpty (h : Heap K V) : Bool := h.root.isNone

/-- `Feap::get_min`: the root's key and value, if any. -/
def Heap.getMin (h : Heap K V) : Option (K × V) :=
  h.root.map fun r => (r.key, r.val)

/-- The entries of all live nodes (those reachable from `root`). -/
def Heap.elems (h : Heap K V) : List (Nat × K × V) :=
  match h.root with
  | none => []
  | some r => r.entries

/-- The addresses of all live nodes. -/
def Heap.ids (h : Heap K V) : List Nat := h.elems.map fun e => e.1

/-- `Feap::insert`: allocate a fresh node, naive-link it with the root,
index it under its key, and bump the length. -/
def Heap.insert (h : Heap K V) (k : K) (v : V) : Heap K V :=
  let n : Node K V := .mk h.nextId k v 0 false []
  { root := some (match h.root with | none => n | some r => naive_link r n)
    len := h.len + 1
    nodes := Insert.insert (k, h.nextId) h.nodes
    nextId := h.nextId + 1 }

/-- `Feap::merge`: if either heap is empty the other is returned;
otherwise the roots are naive-linked, the lengths add and the indices are
merged.  (`nextId` bookkeeping: any bound for both address sets works;
`max` is used.) -/
def Heap.merge (a b : Heap K V) : Heap K V :=
  match a.root, b.root with
  | none, _ => b
  | some _, none => a
  | some ra, some rb =>
    { root := some (naive_link ra rb)
      len := a.len + b.len
      nodes := a.nodes ∪ b.nodes
      nextId := max a.nextId b.nextId }

/-! ## `delete_min` consolidation

`delete_min` scans the old root's child chain and maintains a transient
rank-to-node table (`rank_to_node: HashMap<u32, NodePtr>`); it is modelled
as an association list.  Keys are pairwise distinct throughout the run, so
the association list is faithful to the hash map; `into_values()`
enumerates it in the model's list order (the Rust iteration order of a
`HashMap` is unspecified). -/

/-- `rank_to_node.remove(&rank)`: the entry stored under `rank`, if any,
and the remaining table. -/
def tableRemove (r : Nat) :
    List (Nat × Node K V) → Option (Node K V) × List (Nat × Node K V)
  | [] => (none, [])
  | (r', n) :: t =>
    if r' = r then (some n, t)
    else
      let q := tableRemove r t
      (q.1, (r', n) :: q.2)

theorem tableRemove_length {r : Nat} {t : List (Nat × Node K V)}
    {n : Node K V} {t' : List (Nat × Node K V)}
    (h : tableRemove r t = (some n, t')) : t'.length + 1 = t.length := by
  induction t generalizing t' with
  | nil => simp [tableRemove] at h
  | cons e t ih =>
    rw [tableRemove] at h
    split at h
    · cases h; simp
    · simp only [Prod.mk.injEq] at h
      obtain ⟨h1, h2⟩ := h
      have hlen := ih (show tableRemove r t = (some n, (tableRemove r t).2) by
        rw [← h1])
      subst h2
      simp only [List.length_cons]
      omega

/-- The body of the inner
`while let Some(other) = rank_to_node.remove(&node.rank)` loop, iterated
a bounded number of times.  Each successful removal shrinks the table by
one entry, so `t.length + 1` iterations always reach the `none` case;
`placeNode_unfold` below recovers the loop's exact unfolding. -/
def placeNodeF : Nat → Node K V → List (Nat × Node K V) →
    List (Nat × Node K V)
  | 0, n, t => (n.rank, n) :: t
  | fuel + 1, n, t =>
    match tableRemove n.rank t with
    | (none, _) => (n.rank, n) :: t
    | (some other, t') => placeNodeF fuel (fair_link n other) t'

/-- The inner `while` loop: repeatedly fair-link with a same-rank table
entry, re-looking-up at each new (incremented) rank, and finally store
the node under its rank. -/
def placeNode (n : Node K V) (t : List (Nat × Node K V)) :
    List (Nat × Node K V) :=
  placeNodeF (t.length + 1) n t

theorem placeNodeF_fuel : ∀ (fuel fuel' : Nat) (n : Node K V)
    (t : List (Nat × Node K V)), t.length < fuel → t.length < fuel' →
    placeNodeF fuel n t = placeNodeF fuel' n t
  | 0, _, n, t => by
    intro h _
    cases h
  | _ + 1, 0, n, t => by
    intro _ h
    cases h
  | fuel + 1, fuel' + 1, n, t => by
    intro h h'
    rw [placeNodeF, placeNodeF]
    cases hrem : tableRemove n.rank t with
    | mk o t2 =>
      cases o with
      | none => simp
      | some other =>
        simp only
        have hlen := tableRemove_length hrem
        exact placeNodeF_fuel fuel fuel' (fair_link n other) t2
          (by omega) (by omega)

/-- The `while` loop unfolds exactly as in the source: if the table holds
a node of the same rank, remove it, fair-link, and loop; otherwise store
the node under its rank. -/
theorem placeNode_unfold (n : Node K V) (t : List (Nat × Node K V)) :
    placeNode n t =
      match tableRemove n.rank t with
      | (none, _) => (n.rank, n) :: t
      | (some other, t') => placeNode (fair_link n other) t' := by
  rw [placeNode, placeNodeF]
  cases hrem : tableRemove n.rank t with
  | mk o t2 =>
    cases o with
    | none => simp
    | some other =>
      simp only
      have hlen := tableRemove_length hrem
      rw [placeNode]
      exact placeNodeF_fuel _ _ (fair_link n other) t2 (by omega) (by omega)

/-- The `for node in root.children()` loop of `delete_min`. -/
def consolidate (cs : List (Node K V)) (t : List (Nat × Node K V)) :
    List (Nat × Node K V) :=
  match cs with
  | [] => t
  | c :: cs => consolidate cs (placeNode c t)

/-- `rank_to_node.into_values().reduce(naive_link)`. -/
def reduceLink : List (Node K V) → Option (Node K V)
  | [] => none
  | n :: ns => some (ns.foldl naive_link n)

/-- `Feap::delete_min`: remove the root, consolidate its children into a
single tree, unindex and count down, and return the removed key/value.
On an empty heap, return the empty signal and leave the heap unchanged. -/
def Heap.deleteMin (h : Heap K V) : Option (K × V) × Heap K V :=
  match h.root with
  | none => (none, h)
  | some r =>
    let newRoot :=
      if r.children.isEmpty then none
      else reduceLink ((consolidate r.children []).map fun e => e.2)
    (some (r.key, r.val),
     { root := newRoot
       len := h.len - 1
       nodes := h.nodes.erase (r.key, r.id)
       nextId := h.nextId })

/-! ## `decrease_key` and `delete` -/

/-- `Entry::decrease_key` for the node at position `p`.  `none` models the
`assert!(new_key <= key)` panic (and the undefined behaviour of a dangling
handle, which the claims exclude by hypothesis).  On an empty heap the
source does nothing. -/
def Heap.decreaseKey (h : Heap K V) (p : List Nat) (newKey : K) :
    Option (Heap K V) :=
  match h.root with
  | none => some h
  | some root =>
    match getAt root p with
    | none => none
    | some n =>
      if n.key < newKey then none
      else
        let nodes' := Insert.insert (newKey, n.id) (h.nodes.erase (n.key, n.id))
        let root1 := modifyAt root p (Node.setKey newKey)
        if p = [] then
          some { h with root := some root1, nodes := nodes' }
        else
          let root3 := (cascadeAux (root1.setMark true) p).1
          match removeAt root3 p with
          | none => none
          | some q =>
            some { h with root := some (naive_link q.1 q.2), nodes := nodes' }

/-- `Entry::delete` for the node at position `p`: decrease its key to the
current root's key, then `delete_min`; the removed key/value returned by
`delete_min` is discarded (`let _ = feap.delete_min();`), so only the
updated heap is produced.  On an empty heap the source does nothing. -/
def Heap.deleteEntry (h : Heap K V) (p : List Nat) : Option (Heap K V) :=
  match h.root with
  | none => some h
  | some root =>
    (h.decreaseKey p root.key).map fun h' => (h'.deleteMin).2

/-! ## Mark/rank erasure

`cascade_decrease_rank` and the mark writes of `decrease_key` touch only
`rank` and `is_marked`, which neither the entries nor heap order depend
on.  `strip` erases both fields recursively; "equal after `strip`" is the
congruence used to transport entry and order facts across the cascade. -/

mutual

/-- Erase ranks and marks everywhere in a tree. -/
def Node.strip : Node K V → Node K V
  | .mk i k v _ _ cs => .mk i k v 0 false (stripL cs)

/-- Erase ranks and marks in a list of trees. -/
def stripL : List (Node K V) → List (Node K V)
  | [] => []
  | c :: cs => c.strip :: stripL cs

end

@[simp] theorem strip_mk (i : Nat) (k : K) (v : V) (r m cs) :
    (Node.mk i k v r m cs).strip = .mk i k v 0 false (stripL cs) := by
  rw [Node.strip]

@[simp] theorem stripL_nil : stripL ([] : List (Node K V)) = [] := rfl

@[simp] theorem stripL_cons (c : Node K V) (cs : List (Node K V)) :
    stripL (c :: cs) = c.strip :: stripL cs := rfl

theorem stripL_eq_map (cs : List (Node K V)) : stripL cs = cs.map Node.strip := by
  induction cs with
  | nil => rfl
  | cons c cs ih => simp [ih]

@[simp] theorem strip_id (n : Node K V) : n.strip.id = n.id := by cases n; simp

@[simp] theorem strip_key (n : Node K V) : n.strip.key = n.key := by cases n; simp

@[simp] theorem strip_val (n : Node K V) : n.strip.val = n.val := by cases n; simp

theorem strip_children (n : Node K V) : n.strip.children = stripL n.children := by
  cases n; simp

mutual

theorem strip_entries : ∀ n : Node K V, n.strip.entries = n.entries
  | .mk i k v r m cs => by
    rw [strip_mk, Node.entries_mk, Node.entries_mk, stripL_entries cs]

theorem stripL_entries : ∀ cs : List (Node K V), entriesL (stripL cs) = entriesL cs
  | [] => rfl
  | c :: cs => by
    rw [stripL_cons, entriesL_cons, entriesL_cons, strip_entries c, stripL_entries cs]

end

theorem heapOrd_strip {n : Node K V} (h : HeapOrd n) : HeapOrd n.strip := by
  induction h with
  | mk hle hord ih =>
    rw [strip_mk]
    refine HeapOrd.mk ?_ ?_
    · intro c hc
      rw [stripL_eq_map] at hc
      obtain ⟨c₀, hc₀, rfl⟩ := List.mem_map.mp hc
      simpa using hle c₀ hc₀
    · intro c hc
      rw [stripL_eq_map] at hc
      obtain ⟨c₀, hc₀, rfl⟩ := List.mem_map.mp hc
      exact ih c₀ hc₀

theorem heapOrd_of_strip : ∀ {n : Node K V}, HeapOrd n.strip → HeapOrd n := by
  suffices h : ∀ m : Node K V, HeapOrd m → ∀ n : Node K V, n.strip = m → HeapOrd n by
    intro n hn
    exact h _ hn n rfl
  intro m hm
  induction hm with
  | mk hle hord ih =>
    intro n hn
    cases n with
    | mk i₀ k₀ v₀ r₀ m₀ cs₀ =>
      rw [strip_mk, Node.mk.injEq] at hn
      obtain ⟨rfl, rfl, rfl, -, -, hcs⟩ := hn
      refine HeapOrd.mk ?_ ?_
      · intro c hc
        have : c.strip ∈ stripL cs₀ := by
          rw [stripL_eq_map]
          exact List.mem_map_of_mem _ hc
        rw [hcs] at this
        simpa using hle c.strip this
      · intro c hc
        have : c.strip ∈ stripL cs₀ := by
          rw [stripL_eq_map]
          exact List.mem_map_of_mem _ hc
        rw [hcs] at this
        exact ih c.strip this c rfl

theorem heapOrd_iff_strip {n : Node K V} : HeapOrd n.strip ↔ HeapOrd n :=
  ⟨heapOrd_of_strip, heapOrd_strip⟩

theorem entries_eq_of_strip_eq {a b : Node K V} (h : a.strip = b.strip) :
    a.entries = b.entries := by
  rw [← strip_entries a, ← strip_entries b, h]

theorem heapOrd_congr_strip {a b : Node K V} (h : a.strip = b.strip)
    (ha : HeapOrd a) : HeapOrd b :=
  heapOrd_of_strip (h ▸ heapOrd_strip ha)

/-! ## List helpers -/

theorem mapEraseIdx {α β : Type _} (f : α → β) :
    ∀ (l : List α) (i : Nat), (l.eraseIdx i).map f = (l.map f).eraseIdx i
  | [], _ => by simp
  | _ :: _, 0 => by simp
  | a :: l, i + 1 => by
    simp only [List.eraseIdx_cons_succ, List.map_cons]
    rw [mapEraseIdx f l i]

theorem setIdx_self {α : Type _} :
    ∀ {l : List α} {i : Nat} {x : α}, l[i]? = some x → l.set i x = l
  | [], i, x => by simp
  | a :: l, 0, x => by
    intro h
    simp only [List.getElem?_cons_zero, Option.some.injEq] at h
    simp [h]
  | a :: l, i + 1, x => by
    intro h
    simp only [List.getElem?_cons_succ] at h
    simp [setIdx_self h]

/-- Splitting `entriesL` around the child at index `j`, together with the
effect of replacing or erasing that child. -/
theorem entriesL_decomp {cs : List (Node K V)} {j : Nat} {c : Node K V}
    (h : cs[j]? = some c) :
    ∃ L R, entriesL cs = L ++ (c.entries ++ R) ∧
      (∀ x : Node K V, entriesL (cs.set j x) = L ++ (x.entries ++ R)) ∧
      entriesL (cs.eraseIdx j) = L ++ R := by
  induction cs generalizing j with
  | nil => simp at h
  | cons d cs ih =>
    cases j with
    | zero =>
      simp only [List.getElem?_cons_zero, Option.some.injEq] at h
      subst h
      exact ⟨[], entriesL cs, by simp, fun x => by simp, by simp⟩
    | succ j =>
      simp only [List.getElem?_cons_succ] at h
      obtain ⟨L, R, h1, h2, h3⟩ := ih h
      refine ⟨d.entries ++ L, R, ?_, ?_, ?_⟩
      · simp [h1]
      · intro x
        simp [h2 x]
      · simp [h3]

/-! ## The cascade only changes marks and ranks -/

@[simp] theorem strip_cascadeTouch (n : Node K V) :
    n.cascadeTouch.strip = n.strip := by
  cases n
  rw [Node.cascadeTouch]
  simp

@[simp] theorem strip_setMark (n : Node K V) (b : Bool) :
    (n.setMark b).strip = n.strip := by
  cases n
  rw [Node.setMark]
  simp

theorem cascadeAux_strip : ∀ (p : List Nat) (t : Node K V),
    ((cascadeAux t p).1).strip = t.strip
  | [], t => by
    rw [cascadeAux]
    split <;> simp
  | j :: p, t => by
    rw [cascadeAux]
    cases hj : t.children[j]? with
    | none => simp
    | some c =>
      simp only
      have hset : stripL (t.children.set j (cascadeAux c p).1) = stripL t.children := by
        rw [stripL_eq_map, stripL_eq_map, List.map_set]
        rw [cascadeAux_strip p c]
        refine setIdx_self ?_
        rw [List.getElem?_map, hj]
        rfl
      have hmain : (Node.mk t.id t.key t.val t.rank t.isMarked
          (t.children.set j (cascadeAux c p).1)).strip = t.strip := by
        rw [strip_mk, hset]
        cases t
        simp
      split
      · split
        · simpa using hmain
        · simpa using hmain
      · simpa using hmain

/-! ## Multiset view of the entries -/

/-- The multiset of entries of a tree. -/
def ME (n : Node K V) : Multiset (Nat × K × V) := (n.entries : Multiset _)

/-- The multiset of entries of a list of trees. -/
def MEL (cs : List (Node K V)) : Multiset (Nat × K × V) := (entriesL cs : Multiset _)

theorem ME_mk (i : Nat) (k : K) (v : V) (r m cs) :
    ME (Node.mk i k v r m cs) = {(i, k, v)} + MEL cs := by
  rw [ME, MEL, Node.entries_mk]
  simp [Multiset.singleton_add]

@[simp] theorem MEL_nil : MEL ([] : List (Node K V)) = 0 := rfl

theorem MEL_cons (c : Node K V) (cs : List (Node K V)) :
    MEL (c :: cs) = ME c + MEL cs := by
  rw [MEL, entriesL_cons]
  rfl

theorem ME_congr_strip {a b : Node K V} (h : a.strip = b.strip) : ME a = ME b := by
  rw [ME, ME, entries_eq_of_strip_eq h]

theorem ME_naive_link (a b : Node K V) : ME (naive_link a b) = ME a + ME b := by
  rw [ME, ME, ME, Multiset.coe_eq_coe.mpr (naive_link_entries a b)]
  rfl

theorem ME_fair_link (a b : Node K V) : ME (fair_link a b) = ME a + ME b := by
  rw [ME, ME, ME, Multiset.coe_eq_coe.mpr (fair_link_entries a b)]
  rfl

theorem ME_card (n : Node K V) : Multiset.card (ME n) = n.entries.length := by
  rw [ME]
  simp

theorem coeAppend {α : Type _} (l₁ l₂ : List α) :
    ((l₁ ++ l₂ : List α) : Multiset α) = (l₁ : Multiset α) + (l₂ : Multiset α) := rfl

/-- Multiset form of `entriesL_decomp`. -/
theorem MEL_decomp {cs : List (Node K V)} {j : Nat} {c : Node K V}
    (h : cs[j]? = some c) :
    ∃ W : Multiset (Nat × K × V), MEL cs = ME c + W ∧
      (∀ x : Node K V, MEL (cs.set j x) = ME x + W) ∧
      MEL (cs.eraseIdx j) = W := by
  obtain ⟨L, R, h1, h2, h3⟩ := entriesL_decomp h
  refine ⟨(L : Multiset _) + (R : Multiset _), ?_, ?_, ?_⟩
  · rw [MEL, h1, ME, coeAppend, coeAppend]
    abel
  · intro x
    rw [MEL, h2 x, ME, coeAppend, coeAppend]
    abel
  · rw [MEL, h3, coeAppend]

/-! ## `removeAt` and `getAt` lemmas -/

/-- A valid non-root position can be unlinked, and `unlink` returns
exactly the designated subtree. -/
theorem removeAt_of_getAt : ∀ (p : List Nat) (t n : Node K V),
    getAt t p = some n → p ≠ [] → ∃ t', removeAt t p = some (t', n)
  | [], t, n => by simp
  | [j], t, n => by
    intro hget _
    rw [getAt_cons] at hget
    cases hj : t.children[j]? with
    | none => rw [hj] at hget; cases hget
    | some c =>
      rw [hj] at hget
      simp only [getAt_nil, Option.some.injEq] at hget
      subst hget
      exact ⟨_, by rw [removeAt, hj]⟩
  | j :: j' :: p, t, n => by
    intro hget _
    rw [getAt_cons] at hget
    cases hj : t.children[j]? with
    | none => rw [hj] at hget; cases hget
    | some c =>
      rw [hj] at hget
      obtain ⟨c', hc'⟩ := removeAt_of_getAt (j' :: p) c n hget (by simp)
      refine ⟨Node.mk t.id t.key t.val t.rank t.isMarked (t.children.set j c'), ?_⟩
      simp only [removeAt, hj, hc']
      rfl

/-- Unlinking splits the entry multiset and preserves heap order on both
parts; the top node of the remaining tree keeps its fields. -/
theorem removeAt_split : ∀ (p : List Nat) (t t' s : Node K V),
    removeAt t p = some (t', s) →
    ME t' + ME s = ME t ∧
    (t'.id = t.id ∧ t'.key = t.key ∧ t'.val = t.val) ∧
    (HeapOrd t → HeapOrd t' ∧ HeapOrd s)
  | [], t, t', s => by simp [removeAt]
  | [j], t, t', s => by
    intro h
    cases hj : t.children[j]? with
    | none =>
      simp only [removeAt, hj] at h
      exact Option.noConfusion h
    | some c =>
      simp only [removeAt, hj, Option.some.injEq, Prod.mk.injEq] at h
      obtain ⟨ht', hs⟩ := h
      subst ht' hs
      obtain ⟨W, hW1, _, hW3⟩ := MEL_decomp hj
      cases t with
      | mk i k v r m cs =>
        refine ⟨?_, by simp, ?_⟩
        · simp only [Node.children_mk] at hW3 hW1 ⊢
          rw [ME_mk, ME_mk]
          simp only [Node.children_mk] at hj
          rw [hW3, hW1]
          simp only [Node.id_mk, Node.key_mk, Node.val_mk]
          abel
        · intro hord
          constructor
          · refine HeapOrd.of_fields ?_ ?_
            · intro d hd
              simp only [Node.children_mk] at hd ⊢
              exact hord.children_le d
                (List.mem_of_mem_eraseIdx (by simpa using hd))
            · intro d hd
              simp only [Node.children_mk] at hd
              exact hord.children_ord d (List.mem_of_mem_eraseIdx hd)
          · refine hord.children_ord _ ?_
            simp only [Node.children_mk] at hj ⊢
            exact List.getElem?_mem hj
  | j :: j' :: p, t, t', s => by
    intro h
    cases hj : t.children[j]? with
    | none =>
      simp only [removeAt, hj] at h
      exact Option.noConfusion h
    | some c =>
      cases hc : removeAt c (j' :: p) with
      | none =>
        simp only [removeAt, hj, hc] at h
        exact Option.noConfusion h
      | some q =>
        simp only [removeAt, hj, hc, Option.map_some', Option.some.injEq,
          Prod.mk.injEq] at h
        obtain ⟨hME, hfields, hord⟩ := removeAt_split (j' :: p) c q.1 q.2 (by
          rw [hc])
        obtain ⟨W, hW1, hW2, _⟩ := MEL_decomp hj
        obtain ⟨rfl, rfl⟩ := h
        refine ⟨?_, by simp, ?_⟩
        · rw [ME_mk]
          have ht : ME t = {(t.id, t.key, t.val)} + MEL t.children := by
            cases t with
            | mk i k v r m cs => rw [ME_mk]; rfl
          rw [ht, hW2 q.1, hW1, ← hME]
          abel
        · intro hordt
          obtain ⟨h1, h2⟩ := hord (hordt.children_ord c (List.getElem?_mem hj))
          refine ⟨HeapOrd.of_fields ?_ ?_, h2⟩
          · intro d hd
            simp only [Node.children_mk] at hd ⊢
            rcases List.mem_or_eq_of_mem_set hd with hd | rfl
            · exact hordt.children_le d hd
            · rw [hfields.2.1]
              exact hordt.children_le c (List.getElem?_mem hj)
          · intro d hd
            simp only [Node.children_mk] at hd
            rcases List.mem_or_eq_of_mem_set hd with hd | rfl
            · exact hordt.children_ord d hd
            · exact h1

/-! ## `setKey` facts -/

@[simp] theorem setKey_id (n : Node K V) (k : K) : (n.setKey k).id = n.id := by
  cases n; rw [Node.setKey]; rfl

@[simp] theorem setKey_key (n : Node K V) (k : K) : (n.setKey k).key = k := by
  cases n; rw [Node.setKey]; rfl

@[simp] theorem setKey_val (n : Node K V) (k : K) : (n.setKey k).val = n.val := by
  cases n; rw [Node.setKey]; rfl

@[simp] theorem setKey_children (n : Node K V) (k : K) :
    (n.setKey k).children = n.children := by
  cases n; rw [Node.setKey]; rfl

theorem ME_setKey (n : Node K V) (k : K) :
    ME (n.setKey k) = {(n.id, k, n.val)} + MEL n.children := by
  cases n with
  | mk i k₀ v r m cs => rw [Node.setKey, ME_mk]; rfl

theorem ME_eq_head_add (n : Node K V) :
    ME n = {(n.id, n.key, n.val)} + MEL n.children := by
  cases n with
  | mk i k v r m cs => rw [ME_mk]; rfl

theorem heapOrd_setKey {n : Node K V} {k : K} (h : HeapOrd n) (hk : k ≤ n.key) :
    HeapOrd (n.setKey k) := by
  refine HeapOrd.of_fields ?_ ?_
  · intro c hc
    rw [setKey_children] at hc
    rw [setKey_key]
    exact le_trans hk (h.children_le c hc)
  · intro c hc
    rw [setKey_children] at hc
    exact h.children_ord c hc

/-! ## Commutation lemmas for the `decrease_key` pipeline -/

theorem eraseIdxSet {α : Type _} :
    ∀ (l : List α) (i : Nat) (x : α), (l.set i x).eraseIdx i = l.eraseIdx i
  | [], _, _ => by simp
  | _ :: _, 0, _ => by simp
  | a :: l, i + 1, x => by
    simp only [List.set_cons_succ, List.eraseIdx_cons_succ]
    rw [eraseIdxSet l i x]

/-- `strip` both components of an `unlink` result. -/
def stripP (q : Node K V × Node K V) : Node K V × Node K V :=
  (q.1.strip, q.2.strip)

theorem strip_children_map {x y : Node K V} (h : x.strip = y.strip) :
    x.children.map Node.strip = y.children.map Node.strip := by
  have := congrArg Node.children h
  rw [strip_children, strip_children, stripL_eq_map, stripL_eq_map] at this
  exact this

theorem strip_top_eq {x y : Node K V} (h : x.strip = y.strip) :
    x.id = y.id ∧ x.key = y.key ∧ x.val = y.val := by
  refine ⟨?_, ?_, ?_⟩
  · rw [← strip_id x, ← strip_id y, h]
  · rw [← strip_key x, ← strip_key y, h]
  · rw [← strip_val x, ← strip_val y, h]

theorem strip_getElem? {x y : Node K V} (h : x.strip = y.strip) (j : Nat) :
    x.children[j]?.map Node.strip = y.children[j]?.map Node.strip := by
  have := strip_children_map h
  rw [← List.getElem?_map, ← List.getElem?_map, this]

/-- Trees equal after `strip` have `unlink` results equal after `strip`:
`unlink` inspects only the child-chain structure. -/
theorem removeAt_strip_congr : ∀ (p : List Nat) {x y : Node K V},
    x.strip = y.strip →
    (removeAt x p).map stripP = (removeAt y p).map stripP
  | [], x, y => by intro _; simp [removeAt]
  | [j], x, y => by
    intro h
    obtain ⟨hid, hkey, hval⟩ := strip_top_eq h
    have hje := strip_getElem? h j
    cases hjx : x.children[j]? with
    | none =>
      rw [hjx] at hje
      cases hjy : y.children[j]? with
      | none => simp [removeAt, hjx, hjy]
      | some cy => rw [hjy] at hje; cases hje
    | some cx =>
      rw [hjx] at hje
      cases hjy : y.children[j]? with
      | none => rw [hjy] at hje; cases hje
      | some cy =>
        rw [hjy] at hje
        simp only [Option.map_some', Option.some.injEq] at hje
        simp only [removeAt, hjx, hjy, Option.map_some', Option.some.injEq]
        rw [stripP, stripP]
        simp only [Prod.mk.injEq]
        refine ⟨?_, hje⟩
        rw [strip_mk, strip_mk, hid, hkey, hval, stripL_eq_map, stripL_eq_map,
          mapEraseIdx, mapEraseIdx, strip_children_map h]
  | j :: j' :: p, x, y => by
    intro h
    have hje := strip_getElem? h j
    cases hjx : x.children[j]? with
    | none =>
      rw [hjx] at hje
      cases hjy : y.children[j]? with
      | none => simp [removeAt, hjx, hjy]
      | some cy => rw [hjy] at hje; cases hje
    | some cx =>
      rw [hjx] at hje
      cases hjy : y.children[j]? with
      | none => rw [hjy] at hje; cases hje
      | some cy =>
        rw [hjy] at hje
        simp only [Option.map_some', Option.some.injEq] at hje
        have ih := removeAt_strip_congr (j' :: p) hje
        cases hrx : removeAt cx (j' :: p) with
        | none =>
          rw [hrx] at ih
          cases hry : removeAt cy (j' :: p) with
          | none => simp [removeAt, hjx, hjy, hrx, hry]
          | some qy => rw [hry] at ih; cases ih
        | some qx =>
          rw [hrx] at ih
          cases hry : removeAt cy (j' :: p) with
          | none => rw [hry] at ih; cases ih
          | some qy =>
            rw [hry] at ih
            simp only [Option.map_some', Option.some.injEq] at ih
            simp only [removeAt, hjx, hjy, hrx, hry, Option.map_some',
              Option.some.injEq]
            rw [stripP, stripP]
            simp only [Prod.mk.injEq]
            have hq1 : qx.1.strip = qy.1.strip := congrArg Prod.fst ih
            have hq2 : qx.2.strip = qy.2.strip := congrArg Prod.snd ih
            obtain ⟨hid, hkey, hval⟩ := strip_top_eq h
            refine ⟨?_, hq2⟩
            rw [strip_mk, strip_mk, hid, hkey, hval, stripL_eq_map, stripL_eq_map,
              List.map_set, List.map_set, strip_children_map h, hq1]

/-- Rewriting the subtree at `p` and then unlinking at `p` removes the
rewritten subtree and leaves the same remainder as unlinking directly. -/
theorem removeAt_modifyAt : ∀ (p : List Nat) {t t' s : Node K V}
    (f : Node K V → Node K V), removeAt t p = some (t', s) →
    removeAt (modifyAt t p f) p = some (t', f s)
  | [], t, t', s, f => by intro h; cases h
  | [j], t, t', s, f => by
    intro h
    cases hj : t.children[j]? with
    | none =>
      simp only [removeAt, hj] at h
      exact Option.noConfusion h
    | some c =>
      simp only [removeAt, hj, Option.some.injEq, Prod.mk.injEq] at h
      obtain ⟨ht', hs⟩ := h
      subst ht' hs
      have hlen : j < t.children.length := (List.getElem?_eq_some.mp hj).1
      have hmod : modifyAt t [j] f =
          Node.mk t.id t.key t.val t.rank t.isMarked
            (t.children.set j (f c)) := by
        rw [modifyAt, hj]
        simp only [modifyAt]
      rw [hmod]
      simp only [removeAt, Node.children_mk, Node.id_mk, Node.key_mk,
        Node.val_mk, Node.rank_mk, Node.isMarked_mk,
        List.getElem?_set_self hlen, eraseIdxSet]
  | j :: j' :: p, t, t', s, f => by
    intro h
    cases hj : t.children[j]? with
    | none =>
      simp only [removeAt, hj] at h
      exact Option.noConfusion h
    | some c =>
      cases hc : removeAt c (j' :: p) with
      | none =>
        simp only [removeAt, hj, hc] at h
        exact Option.noConfusion h
      | some q =>
        simp only [removeAt, hj, hc, Option.map_some', Option.some.injEq,
          Prod.mk.injEq] at h
        obtain ⟨ht', hs⟩ := h
        subst ht' hs
        have hlen : j < t.children.length := (List.getElem?_eq_some.mp hj).1
        have ih := removeAt_modifyAt (j' :: p) f hc
        have hmod : modifyAt t (j :: j' :: p) f =
            Node.mk t.id t.key t.val t.rank t.isMarked
              (t.children.set j (modifyAt c (j' :: p) f)) := by
          rw [modifyAt, hj]
        rw [hmod]
        simp only [removeAt, Node.children_mk, Node.id_mk, Node.key_mk,
          Node.val_mk, Node.rank_mk, Node.isMarked_mk,
          List.getElem?_set_self hlen, ih, Option.map_some', List.set_set]

/-- Master lemma for the relinking pipeline of `decrease_key` on a
non-root node: after the in-place key write, the root mark write and the
cascade, unlinking at `p` yields (up to marks and ranks) the original
remainder tree and the original subtree with its root key overwritten. -/
theorem decrease_relink {t n : Node K V} {p : List Nat}
    (hp : p ≠ []) (hget : getAt t p = some n) (k' : K) :
    ∃ t4 sub t',
      removeAt ((cascadeAux ((modifyAt t p (Node.setKey k')).setMark true) p).1) p
        = some (t4, sub) ∧
      removeAt t p = some (t', n) ∧
      t4.strip = t'.strip ∧ sub.strip = (n.setKey k').strip := by
  obtain ⟨t', ht'⟩ := removeAt_of_getAt p t n hget hp
  have hmod := removeAt_modifyAt p (Node.setKey k') ht'
  have hstrip : ((cascadeAux ((modifyAt t p (Node.setKey k')).setMark true) p).1).strip
      = (modifyAt t p (Node.setKey k')).strip := by
    rw [cascadeAux_strip, strip_setMark]
  have hcong := removeAt_strip_congr p hstrip
  rw [hmod] at hcong
  cases hX : removeAt ((cascadeAux ((modifyAt t p (Node.setKey k')).setMark true) p).1) p with
  | none =>
    rw [hX] at hcong
    exact Option.noConfusion hcong
  | some q =>
    rw [hX] at hcong
    simp only [Option.map_some', Option.some.injEq] at hcong
    refine ⟨q.1, q.2, t', by rw [← hX], ht', ?_, ?_⟩
    · exact congrArg Prod.fst hcong
    · exact congrArg Prod.snd hcong

/-! ## Consolidation lemmas for `delete_min` -/

/-- Entry multiset held by a rank table. -/
def MET (tbl : List (Nat × Node K V)) : Multiset (Nat × K × V) :=
  MEL (tbl.map fun e => e.2)

@[simp] theorem MET_nil : MET ([] : List (Nat × Node K V)) = 0 := rfl

theorem MET_cons (e : Nat × Node K V) (tbl : List (Nat × Node K V)) :
    MET (e :: tbl) = ME e.2 + MET tbl := by
  rw [MET, List.map_cons, MEL_cons]
  rfl

theorem tableRemove_MET {r : Nat} {tbl : List (Nat × Node K V)} :
    ∀ {n : Node K V} {t' : List (Nat × Node K V)},
    tableRemove r tbl = (some n, t') → MET tbl = ME n + MET t' := by
  induction tbl with
  | nil => intro n t' h; simp [tableRemove] at h
  | cons e tbl ih =>
    intro n t' h
    rw [tableRemove] at h
    split at h
    · simp only [Prod.mk.injEq, Option.some.injEq] at h
      obtain ⟨rfl, rfl⟩ := h
      rw [MET_cons]
    · simp only [Prod.mk.injEq] at h
      obtain ⟨h1, h2⟩ := h
      have := ih (show tableRemove r tbl = (some n, (tableRemove r tbl).2) by
        rw [← h1])
      subst h2
      rw [MET_cons, MET_cons, this]
      abel

/-- All nodes stored in a table are heap-ordered. -/
def TblOrd (tbl : List (Nat × Node K V)) : Prop := ∀ e ∈ tbl, HeapOrd e.2

theorem tableRemove_TblOrd {r : Nat} {tbl : List (Nat × Node K V)}
    {n : Node K V} {t' : List (Nat × Node K V)}
    (h : tableRemove r tbl = (some n, t')) (ho : TblOrd tbl) :
    HeapOrd n ∧ TblOrd t' := by
  induction tbl generalizing t' with
  | nil => simp [tableRemove] at h
  | cons e tbl ih =>
    rw [tableRemove] at h
    split at h
    · simp only [Prod.mk.injEq, Option.some.injEq] at h
      obtain ⟨rfl, rfl⟩ := h
      exact ⟨ho e (by simp), fun e' he' => ho e' (by simp [he'])⟩
    · simp only [Prod.mk.injEq] at h
      obtain ⟨h1, h2⟩ := h
      have hr := ih (show tableRemove r tbl = (some n, (tableRemove r tbl).2) by
        rw [← h1]) (fun e' he' => ho e' (by simp [he']))
      subst h2
      refine ⟨hr.1, fun x hx => ?_⟩
      rcases List.mem_cons.mp hx with rfl | hx
      · exact ho e (by simp)
      · exact hr.2 x hx

theorem placeNode_MET (n : Node K V) (tbl : List (Nat × Node K V)) :
    MET (placeNode n tbl) = ME n + MET tbl := by
  rw [placeNode_unfold]
  split
  · rw [MET_cons]
  · rename_i other t' h
    rw [placeNode_MET (fair_link n other) t', ME_fair_link,
      tableRemove_MET h]
    abel
termination_by tbl.length
decreasing_by
  rename_i h
  have := tableRemove_length h
  omega

theorem placeNode_TblOrd {n : Node K V} {tbl : List (Nat × Node K V)}
    (hn : HeapOrd n) (ho : TblOrd tbl) : TblOrd (placeNode n tbl) := by
  rw [placeNode_unfold]
  split
  · intro e he
    rcases List.mem_cons.mp he with rfl | he
    · exact hn
    · exact ho e he
  · rename_i other t' h
    obtain ⟨h1, h2⟩ := tableRemove_TblOrd h ho
    exact placeNode_TblOrd (heapOrd_fair_link hn h1) h2
termination_by tbl.length
decreasing_by
  rename_i h
  have := tableRemove_length h
  omega

theorem consolidate_MET (cs : List (Node K V)) (tbl : List (Nat × Node K V)) :
    MET (consolidate cs tbl) = MEL cs + MET tbl := by
  induction cs generalizing tbl with
  | nil => rw [consolidate]; simp
  | cons c cs ih =>
    rw [consolidate, ih, placeNode_MET, MEL_cons]
    abel

theorem consolidate_TblOrd {cs : List (Node K V)} {tbl : List (Nat × Node K V)}
    (hcs : ∀ c ∈ cs, HeapOrd c) (ho : TblOrd tbl) :
    TblOrd (consolidate cs tbl) := by
  induction cs generalizing tbl with
  | nil => exact ho
  | cons c cs ih =>
    rw [consolidate]
    exact ih (fun c' hc' => hcs c' (by simp [hc']))
      (placeNode_TblOrd (hcs c (by simp)) ho)

theorem foldl_naive_link_ME (l : List (Node K V)) (a : Node K V) :
    ME (l.foldl naive_link a) = ME a + MEL l := by
  induction l generalizing a with
  | nil => simp [List.foldl]
  | cons b l ih =>
    rw [List.foldl_cons, ih, ME_naive_link, MEL_cons]
    abel

theorem foldl_naive_link_ord {l : List (Node K V)} {a : Node K V}
    (ha : HeapOrd a) (hl : ∀ b ∈ l, HeapOrd b) :
    HeapOrd (l.foldl naive_link a) := by
  induction l generalizing a with
  | nil => exact ha
  | cons b l ih =>
    rw [List.foldl_cons]
    exact ih (heapOrd_naive_link ha (hl b (by simp)))
      (fun b' hb' => hl b' (by simp [hb']))

theorem reduceLink_ME {l : List (Node K V)} {root : Node K V}
    (h : reduceLink l = some root) : ME root = MEL l := by
  cases l with
  | nil => cases h
  | cons a l =>
    rw [reduceLink] at h
    cases h
    rw [foldl_naive_link_ME, MEL_cons]

theorem reduceLink_ord {l : List (Node K V)} {root : Node K V}
    (h : reduceLink l = some root) (ho : ∀ b ∈ l, HeapOrd b) :
    HeapOrd root := by
  cases l with
  | nil => cases h
  | cons a l =>
    rw [reduceLink] at h
    cases h
    exact foldl_naive_link_ord (ho a (by simp))
      (fun b hb => ho b (by simp [hb]))

theorem reduceLink_none {l : List (Node K V)} (h : reduceLink l = none) :
    l = [] := by
  cases l with
  | nil => rfl
  | cons a l => cases h

/-! ## The heap invariant -/

/-- Multiset of live entries of a heap. -/
def Heap.elemsM (h : Heap K V) : Multiset (Nat × K × V) := (h.elems : Multiset _)

theorem elemsM_of_none {h : Heap K V} (hr : h.root = none) : h.elemsM = 0 := by
  rw [Heap.elemsM, Heap.elems, hr]
  rfl

theorem elemsM_of_some {h : Heap K V} {r : Node K V} (hr : h.root = some r) :
    h.elemsM = ME r := by
  rw [Heap.elemsM, Heap.elems, hr, ME]

theorem elemsM_mk (r : Node K V) (l : Nat) (s : Finset (K × Nat)) (ni : Nat) :
    (Heap.mk (some r) l s ni).elemsM = ME r := elemsM_of_some rfl

/-- The invariant maintained by every public operation: the length is the
number of live nodes, the tree is heap-ordered, the key index holds
exactly the pairs (key, address) of the live nodes, live addresses are
pairwise distinct, and all addresses are below the allocation counter. -/
structure Inv (h : Heap K V) : Prop where
  len_eq : h.len = Multiset.card h.elemsM
  ord : ∀ r, h.root = some r → HeapOrd r
  idx : h.nodes = (h.elemsM.map fun e => (e.2.1, e.1)).toFinset
  nodup : (h.elemsM.map fun e => e.1).Nodup
  bound : ∀ i ∈ h.elemsM.map fun e => e.1, i < h.nextId

theorem heapOrd_leaf (i : Nat) (k : K) (v : V) (r : Nat) (m : Bool) :
    HeapOrd (Node.mk i k v r m []) :=
  HeapOrd.mk (by simp) (by simp)

theorem Inv_new : Inv (Heap.new : Heap K V) := by
  constructor <;> simp [Heap.new, elemsM_of_none, Heap.elemsM, Heap.elems]

theorem Inv_clear (h : Heap K V) : Inv h.clear := Inv_new

theorem insert_root (h : Heap K V) (k : K) (v : V) :
    (h.insert k v).root = some
      (match h.root with
       | none => Node.mk h.nextId k v 0 false []
       | some r => naive_link r (Node.mk h.nextId k v 0 false [])) := rfl

theorem insert_elemsM (h : Heap K V) (k : K) (v : V) :
    (h.insert k v).elemsM = h.elemsM + {(h.nextId, k, v)} := by
  cases hr : h.root with
  | none =>
    rw [elemsM_of_some (by rw [insert_root, hr]), elemsM_of_none hr, ME_mk]
    simp
  | some r =>
    rw [elemsM_of_some (by rw [insert_root, hr]), elemsM_of_some hr,
      ME_naive_link, ME_mk]
    simp

theorem Inv_insert {h : Heap K V} (hi : Inv h) (k : K) (v : V) :
    Inv (h.insert k v) := by
  have hb := hi.bound
  constructor
  · show h.len + 1 = _
    rw [insert_elemsM, hi.len_eq]
    simp
  · intro r hr
    rw [insert_root] at hr
    cases hroot : h.root with
    | none =>
      rw [hroot] at hr
      cases hr
      exact heapOrd_leaf _ _ _ _ _
    | some r₀ =>
      rw [hroot] at hr
      cases hr
      exact heapOrd_naive_link (hi.ord r₀ hroot) (heapOrd_leaf _ _ _ _ _)
  · show Insert.insert (k, h.nextId) h.nodes = _
    rw [insert_elemsM, hi.idx, Multiset.map_add, Multiset.toFinset_add]
    simp [Finset.insert_eq, Finset.union_comm]
  · rw [insert_elemsM, Multiset.map_add, Multiset.nodup_add]
    refine ⟨hi.nodup, by simp, ?_⟩
    simp only [Multiset.map_singleton, Multiset.disjoint_singleton]
    intro hmem
    exact absurd (hb _ hmem) (by simp)
  · intro i hmem
    rw [insert_elemsM, Multiset.map_add] at hmem
    show i < h.nextId + 1
    rcases Multiset.mem_add.mp hmem with hmem | hmem
    · exact Nat.lt_succ_of_lt (hb i hmem)
    · simp only [Multiset.map_singleton, Multiset.mem_singleton] at hmem
      omega

theorem Inv_merge {a b : Heap K V} (ha : Inv a) (hb : Inv b)
    (hdisj : Disjoint (a.elemsM.map fun e => e.1) (b.elemsM.map fun e => e.1)) :
    Inv (a.merge b) := by
  cases hra : a.root with
  | none =>
    have : a.merge b = b := by rw [Heap.merge, hra]
    rw [this]
    exact hb
  | some ra =>
    cases hrb : b.root with
    | none =>
      have : a.merge b = a := by rw [Heap.merge, hra, hrb]
      rw [this]
      exact ha
    | some rb =>
      have hm : a.merge b = Heap.mk (some (naive_link ra rb))
          (a.len + b.len) (a.nodes ∪ b.nodes) (max a.nextId b.nextId) := by
        rw [Heap.merge, hra, hrb]
      have helems : (a.merge b).elemsM = a.elemsM + b.elemsM := by
        rw [elemsM_of_some (by rw [hm]), ME_naive_link,
          elemsM_of_some hra, elemsM_of_some hrb]
      constructor
      · rw [helems]
        have : (a.merge b).len = a.len + b.len := by rw [hm]
        rw [this, ha.len_eq, hb.len_eq]
        simp
      · intro r hr
        rw [hm] at hr
        cases hr
        exact heapOrd_naive_link (ha.ord ra hra) (hb.ord rb hrb)
      · have : (a.merge b).nodes = a.nodes ∪ b.nodes := by rw [hm]
        rw [this, helems, ha.idx, hb.idx, Multiset.map_add,
          Multiset.toFinset_add]
      · rw [helems, Multiset.map_add, Multiset.nodup_add]
        exact ⟨ha.nodup, hb.nodup, hdisj⟩
      · intro i hmem
        have : (a.merge b).nextId = max a.nextId b.nextId := by rw [hm]
        rw [this]
        rw [helems, Multiset.map_add] at hmem
        rcases Multiset.mem_add.mp hmem with hmem | hmem
        · exact lt_max_of_lt_left (ha.bound i hmem)
        · exact lt_max_of_lt_right (hb.bound i hmem)

/-! ## `delete_min` preservation -/

theorem deleteMin_of_none {h : Heap K V} (hr : h.root = none) :
    h.deleteMin = (none, h) := by
  rw [Heap.deleteMin.eq_def, hr]

theorem deleteMin_of_some {h : Heap K V} {r : Node K V} (hr : h.root = some r) :
    h.deleteMin = (some (r.key, r.val),
      Heap.mk
        (if r.children.isEmpty then none
         else reduceLink ((consolidate r.children []).map fun e => e.2))
        (h.len - 1) (h.nodes.erase (r.key, r.id)) h.nextId) := by
  rw [Heap.deleteMin.eq_def, hr]

theorem MEL_ne_zero {cs : List (Node K V)} (h : cs ≠ []) : MEL cs ≠ 0 := by
  cases cs with
  | nil => exact absurd rfl h
  | cons c cs =>
    rw [MEL_cons, ME_eq_head_add]
    simp [add_assoc]

/-- The consolidated tree after `delete_min` carries exactly the entries
of the removed root's children, and is heap-ordered. -/
theorem deleteMin_newRoot {h : Heap K V} {r : Node K V} (hr : h.root = some r)
    (hord : HeapOrd r) :
    ((h.deleteMin).2.elemsM = MEL r.children) ∧
    (∀ r2, (h.deleteMin).2.root = some r2 → HeapOrd r2) := by
  rw [deleteMin_of_some hr]
  by_cases hemp : r.children.isEmpty
  · have hnil : r.children = [] := List.isEmpty_iff.mp hemp
    constructor
    · rw [elemsM_of_none (by simp [hemp]), hnil]
      simp
    · intro r2 hr2
      simp only [if_pos hemp] at hr2
      exact Option.noConfusion hr2
  · have hne : r.children ≠ [] := by
      intro hnil
      rw [hnil] at hemp
      exact hemp rfl
    have hval : MEL ((consolidate r.children []).map fun e => e.2)
        = MEL r.children := by
      have := consolidate_MET r.children []
      rw [MET_nil, add_zero] at this
      rw [← this, MET]
    have hvord : ∀ b ∈ (consolidate r.children []).map fun e => e.2, HeapOrd b := by
      intro b hb
      obtain ⟨e, he, rfl⟩ := List.mem_map.mp hb
      exact consolidate_TblOrd (fun c' hc' => hord.children_ord c' hc')
        (fun e' he' => by simp [TblOrd] at he') e he
    cases hred : reduceLink ((consolidate r.children []).map fun e => e.2) with
    | none =>
      exfalso
      have h0 := reduceLink_none hred
      rw [h0] at hval
      exact MEL_ne_zero hne hval.symm
    | some r2 =>
      constructor
      · rw [elemsM_of_some (by simp only [if_neg hemp, hred]; rfl)]
        exact (reduceLink_ME hred).trans hval
      · intro r2' hr2'
        simp only [if_neg hemp, hred, Option.some.injEq] at hr2'
        subst hr2'
        exact reduceLink_ord hred hvord

theorem deleteMin_elemsM {h : Heap K V} {r : Node K V} (hr : h.root = some r)
    (hord : HeapOrd r) :
    (h.deleteMin).2.elemsM + {(r.id, r.key, r.val)} = h.elemsM := by
  rw [(deleteMin_newRoot hr hord).1, elemsM_of_some hr, ME_eq_head_add]
  abel

theorem Inv_deleteMin {h : Heap K V} (hi : Inv h) : Inv (h.deleteMin).2 := by
  cases hr : h.root with
  | none => rw [deleteMin_of_none hr]; exact hi
  | some r =>
    have hord := hi.ord r hr
    have helems := deleteMin_elemsM hr hord
    have hle : (h.deleteMin).2.elemsM ≤ h.elemsM := by
      rw [← helems]
      exact Multiset.le_add_right _ _
    have hnext : (h.deleteMin).2.nextId = h.nextId := by
      rw [deleteMin_of_some hr]
    constructor
    · have hlen : (h.deleteMin).2.len = h.len - 1 := by
        rw [deleteMin_of_some hr]
      rw [hlen, hi.len_eq, ← helems]
      simp
    · exact (deleteMin_newRoot hr hord).2
    · have hnodes : (h.deleteMin).2.nodes = h.nodes.erase (r.key, r.id) := by
        rw [deleteMin_of_some hr]
      rw [hnodes, hi.idx, ← helems, Multiset.map_add, Multiset.toFinset_add]
      have hid_out : (r.key, r.id) ∉
          ((h.deleteMin).2.elemsM.map fun e => (e.2.1, e.1)).toFinset := by
        intro hmem
        rw [Multiset.mem_toFinset] at hmem
        obtain ⟨e, he, heq⟩ := Multiset.mem_map.mp hmem
        have hnd := hi.nodup
        rw [← helems, Multiset.map_add, Multiset.nodup_add] at hnd
        have he1 : e.1 = r.id := congrArg Prod.snd heq
        have hin : r.id ∈ Multiset.map (fun e => e.1) (h.deleteMin).2.elemsM :=
          Multiset.mem_map.mpr ⟨e, he, he1⟩
        exact Multiset.disjoint_left.mp hnd.2.2 hin (by simp)
      rw [Multiset.map_singleton, Multiset.toFinset_singleton,
        Finset.union_comm]
      exact Finset.erase_insert hid_out
    · exact Multiset.nodup_of_le (Multiset.map_le_map hle) hi.nodup
    · intro i hmem
      rw [hnext]
      exact hi.bound i (Multiset.mem_of_le (Multiset.map_le_map hle) hmem)

/-! ## `decrease_key` preservation -/

/-- Re-assembling the invariant after one node's key is rewritten from
`k0` to `k'` (everything else unchanged, and the index updated by the
erase-then-insert of `decrease_key`). -/
theorem Inv_rekey {h h' : Heap K V} (hi : Inv h) {nid : Nat} {k0 k' : K}
    {v : V} {W : Multiset (Nat × K × V)}
    (hold : h.elemsM = {(nid, k0, v)} + W)
    (hnew : h'.elemsM = {(nid, k', v)} + W)
    (hlen : h'.len = h.len) (hnext : h'.nextId = h.nextId)
    (hnodes : h'.nodes = Insert.insert (k', nid) (h.nodes.erase (k0, nid)))
    (hord : ∀ r', h'.root = some r' → HeapOrd r') : Inv h' := by
  have hid_notin : nid ∉ W.map fun e => e.1 := by
    have hnd := hi.nodup
    rw [hold, Multiset.map_add, Multiset.nodup_add] at hnd
    intro hmem
    exact Multiset.disjoint_left.mp hnd.2.2 (by simp) hmem
  have hpair_notin : ∀ kk : K, (kk, nid) ∉ (W.map fun e => (e.2.1, e.1)).toFinset := by
    intro kk hmem
    rw [Multiset.mem_toFinset] at hmem
    obtain ⟨e, he, heq⟩ := Multiset.mem_map.mp hmem
    exact hid_notin (Multiset.mem_map.mpr ⟨e, he, congrArg Prod.snd heq⟩)
  constructor
  · rw [hlen, hi.len_eq, hold, hnew]
    simp
  · exact hord
  · rw [hnodes, hi.idx, hold, hnew, Multiset.map_add, Multiset.map_add,
      Multiset.toFinset_add, Multiset.toFinset_add, Multiset.map_singleton,
      Multiset.map_singleton, Multiset.toFinset_singleton,
      Multiset.toFinset_singleton, Finset.union_comm ({((nid, k0, v).2.1, (nid, k0, v).1)} : Finset (K × Nat)),
      Finset.union_comm ({((nid, k', v).2.1, (nid, k', v).1)} : Finset (K × Nat))]
    have h0 : ((W.map fun e => (e.2.1, e.1)).toFinset ∪
        {((nid, k0, v).2.1, (nid, k0, v).1)}).erase (k0, nid)
        = (W.map fun e => (e.2.1, e.1)).toFinset := by
      rw [Finset.union_comm]
      exact Finset.erase_insert (hpair_notin k0)
    rw [h0, Finset.union_comm ((Multiset.map (fun e => (e.2.1, e.1)) W).toFinset)]
    rfl
  · have : (h'.elemsM.map fun e => e.1) = (h.elemsM.map fun e => e.1) := by
      rw [hold, hnew]
      simp
    rw [this]
    exact hi.nodup
  · intro i hmem
    rw [hnext]
    refine hi.bound i ?_
    rw [hold]
    rw [hnew] at hmem
    simpa using (by simpa using hmem : i = nid ∨ i ∈ W.map fun e => e.1)

/-- `decrease_key` on a live node with a legal new key succeeds, rewrites
exactly that node's key in place, and preserves the invariant. -/
theorem decreaseKey_spec {h : Heap K V} {r n : Node K V} {p : List Nat} {k' : K}
    (hr : h.root = some r) (hget : getAt r p = some n) (hk : ¬ n.key < k')
    (hi : Inv h) :
    ∃ h', h.decreaseKey p k' = some h' ∧
      ∃ W, h.elemsM = {(n.id, n.key, n.val)} + W ∧
        h'.elemsM = {(n.id, k', n.val)} + W ∧
        Inv h' ∧ h'.len = h.len ∧ h'.nextId = h.nextId ∧
        (k' ≤ r.key → ∃ root', h'.root = some root' ∧
          root'.id = n.id ∧ root'.key = k' ∧ root'.val = n.val) := by
  have hk' : k' ≤ n.key := le_of_not_lt hk
  cases hp : decide (p = []) with
  | true =>
    have hpnil : p = [] := of_decide_eq_true hp
    subst hpnil
    have hn : n = r := by
      rw [getAt_nil, Option.some.injEq] at hget
      exact hget.symm
    subst hn
    have hdk : h.decreaseKey [] k' = some (Heap.mk
        (some (modifyAt n [] (Node.setKey k'))) h.len
        (Insert.insert (k', n.id) (h.nodes.erase (n.key, n.id))) h.nextId) := by
      rw [Heap.decreaseKey.eq_def, hr]
      simp only [getAt_nil, if_neg hk, if_pos rfl]
      rfl
    have hold : h.elemsM = {(n.id, n.key, n.val)} + MEL n.children := by
      rw [elemsM_of_some hr, ME_eq_head_add]
    have hnew : (Heap.mk (some (modifyAt n [] (Node.setKey k'))) h.len
        (Insert.insert (k', n.id) (h.nodes.erase (n.key, n.id))) h.nextId).elemsM
        = {(n.id, k', n.val)} + MEL n.children := by
      rw [elemsM_mk, modifyAt, ME_setKey]
    have hordnew : ∀ r', (Heap.mk (some (modifyAt n [] (Node.setKey k'))) h.len
        (Insert.insert (k', n.id) (h.nodes.erase (n.key, n.id))) h.nextId).root
        = some r' → HeapOrd r' := by
      intro r' hr'
      rw [show (Heap.mk (some (modifyAt n [] (Node.setKey k'))) h.len
        (Insert.insert (k', n.id) (h.nodes.erase (n.key, n.id))) h.nextId).root
        = some (modifyAt n [] (Node.setKey k')) from rfl,
        Option.some.injEq] at hr'
      subst hr'
      rw [modifyAt]
      exact heapOrd_setKey (hi.ord n hr) hk'
    refine ⟨_, hdk, MEL n.children, hold, hnew,
      Inv_rekey hi hold hnew rfl rfl rfl hordnew, rfl, rfl, ?_⟩
    intro _
    refine ⟨modifyAt n [] (Node.setKey k'), rfl, ?_, ?_, ?_⟩
    · rw [modifyAt, setKey_id]
    · rw [modifyAt, setKey_key]
    · rw [modifyAt, setKey_val]
  | false =>
    have hpne : p ≠ [] := of_decide_eq_false hp
    obtain ⟨t4, sub, t', hrel, hrem, ht4, hsub⟩ := decrease_relink hpne hget k'
    obtain ⟨hME, hfields, hords⟩ := removeAt_split p r t' n hrem
    have hdk : h.decreaseKey p k' = some (Heap.mk
        (some (naive_link t4 sub)) h.len
        (Insert.insert (k', n.id) (h.nodes.erase (n.key, n.id))) h.nextId) := by
      rw [Heap.decreaseKey.eq_def, hr]
      simp only [hget, if_neg hk, if_neg hpne, hrel]
    have hordr := hi.ord r hr
    obtain ⟨hordt', hordn⟩ := hords hordr
    have hME4 : ME t4 = ME t' := ME_congr_strip ht4
    have hMEsub : ME sub = ME (n.setKey k') := ME_congr_strip hsub
    have hold : h.elemsM = {(n.id, n.key, n.val)} + (ME t' + MEL n.children) := by
      rw [elemsM_of_some hr, ← hME, ME_eq_head_add n]
      abel
    have hnew : ME (naive_link t4 sub)
        = {(n.id, k', n.val)} + (ME t' + MEL n.children) := by
      rw [ME_naive_link, hME4, hMEsub, ME_setKey]
      abel
    have hordnew : HeapOrd (naive_link t4 sub) := by
      refine heapOrd_naive_link (heapOrd_congr_strip ht4.symm hordt') ?_
      exact heapOrd_congr_strip hsub.symm (heapOrd_setKey hordn hk')
    have hnew2 : (Heap.mk (some (naive_link t4 sub)) h.len
        (Insert.insert (k', n.id) (h.nodes.erase (n.key, n.id))) h.nextId).elemsM
        = {(n.id, k', n.val)} + (ME t' + MEL n.children) := by
      rw [elemsM_mk]
      exact hnew
    have hordnew2 : ∀ r', (Heap.mk (some (naive_link t4 sub)) h.len
        (Insert.insert (k', n.id) (h.nodes.erase (n.key, n.id))) h.nextId).root
        = some r' → HeapOrd r' := by
      intro r' hr'
      rw [show (Heap.mk (some (naive_link t4 sub)) h.len
        (Insert.insert (k', n.id) (h.nodes.erase (n.key, n.id))) h.nextId).root
        = some (naive_link t4 sub) from rfl, Option.some.injEq] at hr'
      subst hr'
      exact hordnew
    refine ⟨_, hdk, ME t' + MEL n.children, hold, hnew2,
      Inv_rekey hi hold hnew2 rfl rfl rfl hordnew2, rfl, rfl, ?_⟩
    intro hkle
    have ht4top := strip_top_eq ht4
    have hsubtop := strip_top_eq hsub
    have ht4key : t4.key = r.key := by rw [ht4top.2.1, hfields.2.1]
    have hsubkey : sub.key = k' := by rw [hsubtop.2.1, setKey_key]
    have hcond : ¬ t4.key < sub.key := by
      rw [ht4key, hsubkey]
      exact not_lt.mpr hkle
    refine ⟨naive_link t4 sub, rfl, ?_, ?_, ?_⟩
    · rw [naive_link, if_neg hcond, add_child_id, hsubtop.1, setKey_id]
    · rw [naive_link, if_neg hcond, add_child_key, hsubkey]
    · rw [naive_link, if_neg hcond, add_child_val, hsubtop.2.2, setKey_val]

/-! ## `delete` preservation -/

theorem getAt_mem_ME {r n : Node K V} {p : List Nat}
    (hget : getAt r p = some n) : (n.id, n.key, n.val) ∈ ME r := by
  cases p with
  | nil =>
    rw [getAt_nil, Option.some.injEq] at hget
    subst hget
    rw [ME_eq_head_add]
    simp
  | cons j p =>
    obtain ⟨t', ht'⟩ := removeAt_of_getAt (j :: p) r n hget (by simp)
    obtain ⟨hME, -, -⟩ := removeAt_split (j :: p) r t' n ht'
    rw [← hME, ME_eq_head_add n]
    simp

theorem root_key_le {r n : Node K V} {p : List Nat} (hord : HeapOrd r)
    (hget : getAt r p = some n) : r.key ≤ n.key := by
  have hmem := getAt_mem_ME hget
  rw [ME, Multiset.mem_coe] at hmem
  exact hord.key_le_entries _ hmem

/-- `Entry::delete` on a live node removes exactly that node's entry and
preserves the invariant. -/
theorem deleteEntry_spec {h : Heap K V} {r n : Node K V} {p : List Nat}
    (hr : h.root = some r) (hget : getAt r p = some n) (hi : Inv h) :
    ∃ h', h.deleteEntry p = some h' ∧
      h'.elemsM + {(n.id, n.key, n.val)} = h.elemsM ∧
      Inv h' ∧ h'.len = h.len - 1 ∧ h'.nextId = h.nextId := by
  have hord := hi.ord r hr
  have hkle : r.key ≤ n.key := root_key_le hord hget
  have hk : ¬ n.key < r.key := not_lt.mpr hkle
  obtain ⟨h1, hdk1, W, hold, hnew, hinv1, hlen1, hnext1, htie⟩ :=
    decreaseKey_spec hr hget hk hi
  obtain ⟨root1, hroot1, hid1, hkey1, hval1⟩ := htie le_rfl
  have hord1 := hinv1.ord root1 hroot1
  have helems2 := deleteMin_elemsM hroot1 hord1
  have hde : h.deleteEntry p = some (h1.deleteMin).2 := by
    rw [Heap.deleteEntry.eq_def, hr]
    simp only [hdk1, Option.map_some']
  refine ⟨(h1.deleteMin).2, hde, ?_, Inv_deleteMin hinv1, ?_, ?_⟩
  · have : (h1.deleteMin).2.elemsM + {(n.id, r.key, n.val)} = h1.elemsM := by
      rw [← helems2, hid1, hkey1, hval1]
    rw [hnew] at this
    have hW : (h1.deleteMin).2.elemsM = W := by
      have h2 : (h1.deleteMin).2.elemsM + {(n.id, r.key, n.val)}
          = W + {(n.id, r.key, n.val)} := by
        rw [this]
        abel
      exact add_right_cancel h2
    rw [hW, hold]
    abel
  · have hlen2 : (h1.deleteMin).2.len = h1.len - 1 := by
      rw [deleteMin_of_some hroot1]
    rw [hlen2, hlen1]
  · have hnext2 : (h1.deleteMin).2.nextId = h1.nextId := by
      rw [deleteMin_of_some hroot1]
    rw [hnext2, hnext1]

/-! ## Reachable heap states -/

/-- Heap states reachable from `Feap::new()` by the public operations.
The `merge` constructor carries `meld`'s contract that the two heaps hold
disjoint node sets (in the model: disjoint address multisets); every other
operation is unconstrained. -/
inductive Reachable : Heap K V → Prop where
  | new : Reachable Heap.new
  | insert {h : Heap K V} (k : K) (v : V) :
      Reachable h → Reachable (h.insert k v)
  | merge {a b : Heap K V} : Reachable a → Reachable b →
      Disjoint (a.elemsM.map fun e => e.1) (b.elemsM.map fun e => e.1) →
      Reachable (a.merge b)
  | decreaseKey {h h' : Heap K V} (p : List Nat) (k : K) :
      Reachable h → h.decreaseKey p k = some h' → Reachable h'
  | deleteMin {h : Heap K V} : Reachable h → Reachable (h.deleteMin).2
  | delete {h h' : Heap K V} (p : List Nat) :
      Reachable h → h.deleteEntry p = some h' → Reachable h'
  | clear {h : Heap K V} : Reachable h → Reachable h.clear

theorem Inv_decreaseKey_eq {h h' : Heap K V} {p : List Nat} {k : K}
    (hi : Inv h) (heq : h.decreaseKey p k = some h') : Inv h' := by
  cases hr : h.root with
  | none =>
    rw [Heap.decreaseKey.eq_def, hr] at heq
    simp only [Option.some.injEq] at heq
    subst heq
    exact hi
  | some r =>
    cases hget : getAt r p with
    | none =>
      rw [Heap.decreaseKey.eq_def, hr] at heq
      simp only [hget] at heq
      exact Option.noConfusion heq
    | some n =>
      by_cases hklt : n.key < k
      · rw [Heap.decreaseKey.eq_def, hr] at heq
        simp only [hget, if_pos hklt] at heq
        exact Option.noConfusion heq
      · obtain ⟨h'', hdk, -, -, -, hinv, -⟩ :=
          decreaseKey_spec hr hget hklt hi
        rw [hdk, Option.some.injEq] at heq
        subst heq
        exact hinv

theorem Inv_deleteEntry_eq {h h' : Heap K V} {p : List Nat}
    (hi : Inv h) (heq : h.deleteEntry p = some h') : Inv h' := by
  cases hr : h.root with
  | none =>
    rw [Heap.deleteEntry.eq_def, hr] at heq
    simp only [Option.some.injEq] at heq
    subst heq
    exact hi
  | some r =>
    cases hget : getAt r p with
    | none =>
      simp only [Heap.deleteEntry.eq_def, hr] at heq
      have hnone : h.decreaseKey p r.key = none := by
        rw [Heap.decreaseKey.eq_def, hr]
        simp only [hget]
      rw [hnone] at heq
      exact Option.noConfusion heq
    | some n =>
      obtain ⟨h'', hde, -, hinv, -⟩ := deleteEntry_spec hr hget hi
      rw [hde, Option.some.injEq] at heq
      subst heq
      exact hinv

/-- Every reachable heap state satisfies the invariant. -/
theorem Inv_reachable {h : Heap K V} (hr : Reachable h) : Inv h := by
  induction hr with
  | new => exact Inv_new
  | insert k v _ ih => exact Inv_insert ih k v
  | merge _ _ hdisj iha ihb => exact Inv_merge iha ihb hdisj
  | decreaseKey p k _ heq ih => exact Inv_decreaseKey_eq ih heq
  | deleteMin _ ih => exact Inv_deleteMin ih
  | delete p _ heq ih => exact Inv_deleteEntry_eq ih heq
  | clear _ _ => exact Inv_new

/-! ## Characterisation of the cascade

The walk of `cascade_decrease_rank` starts at the node itself and climbs;
a visited unmarked node is marked and has its rank decremented
(saturating), and the walk continues to its parent; a visited marked node
stops the walk untouched.  Hence a node on the handle's path is touched
exactly when it and every node below it on the path (down to and
including the target) were unmarked. -/

/-- All nodes from `n` down along `p` to the target are unmarked. -/
def sufUnmarked : Node K V → List Nat → Bool
  | n, [] => !n.isMarked
  | n, j :: p =>
    match n.children[j]? with
    | none => false
    | some c => !n.isMarked && sufUnmarked c p

@[simp] theorem cascadeTouch_id (n : Node K V) : n.cascadeTouch.id = n.id := by
  cases n; rw [Node.cascadeTouch]; rfl

@[simp] theorem cascadeTouch_key (n : Node K V) : n.cascadeTouch.key = n.key := by
  cases n; rw [Node.cascadeTouch]; rfl

@[simp] theorem cascadeTouch_val (n : Node K V) : n.cascadeTouch.val = n.val := by
  cases n; rw [Node.cascadeTouch]; rfl

@[simp] theorem cascadeTouch_rank (n : Node K V) : n.cascadeTouch.rank = n.rank - 1 := by
  cases n; rw [Node.cascadeTouch]; rfl

@[simp] theorem cascadeTouch_isMarked (n : Node K V) : n.cascadeTouch.isMarked = true := by
  cases n; rw [Node.cascadeTouch]; rfl

@[simp] theorem cascadeTouch_children (n : Node K V) :
    n.cascadeTouch.children = n.children := by
  cases n; rw [Node.cascadeTouch]; rfl

/-- The continuation flag of `cascadeAux` is true exactly when the whole
visited chain was unmarked (the walk "escaped" past the top). -/
theorem cascadeAux_flag : ∀ (p : List Nat) (n : Node K V),
    (cascadeAux n p).2 = sufUnmarked n p
  | [], n => by
    rw [cascadeAux, sufUnmarked]
    split
    · rename_i hm
      simp [hm]
    · rename_i hm
      simp only [Bool.not_eq_true] at hm
      simp [hm]
  | j :: p, n => by
    rw [cascadeAux, sufUnmarked]
    cases hj : n.children[j]? with
    | none => rfl
    | some c =>
      simp only
      rw [← cascadeAux_flag p c]
      cases hflag : (cascadeAux c p).2 with
      | false => simp
      | true =>
        by_cases hm : n.isMarked
        · simp [hm]
        · simp only [Bool.not_eq_true] at hm
          simp [hm]

/-- Top-node effect of the cascade: identity, key and value are kept;
the top is marked and its rank decremented (saturating) exactly when the
whole chain below it (itself included) was unmarked, and kept intact
otherwise. -/
theorem cascadeAux_top : ∀ (p : List Nat) (t : Node K V),
    ((cascadeAux t p).1.id = t.id ∧ (cascadeAux t p).1.key = t.key ∧
     (cascadeAux t p).1.val = t.val) ∧
    ((sufUnmarked t p = true → (cascadeAux t p).1.isMarked = true ∧
        (cascadeAux t p).1.rank = t.rank - 1) ∧
     (sufUnmarked t p = false → (cascadeAux t p).1.isMarked = t.isMarked ∧
        (cascadeAux t p).1.rank = t.rank)) := by
  intro p t
  cases p with
  | nil =>
    rw [cascadeAux, sufUnmarked]
    by_cases hm : t.isMarked
    · simp [hm]
    · simp only [Bool.not_eq_true] at hm
      simp [hm]
  | cons jj p =>
    rw [cascadeAux, sufUnmarked]
    cases hjj : t.children[jj]? with
    | none => simp
    | some c =>
      simp only
      rw [← cascadeAux_flag p c]
      cases hfl : (cascadeAux c p).2 with
      | false => simp
      | true =>
        by_cases hm : t.isMarked
        · simp [hm]
        · simp only [Bool.not_eq_true] at hm
          simp [hm]

/-- Field-level characterisation of the cascade along the handle's path:
the node at position `p.take j` keeps its identity, key and value; it is
marked and its rank drops by one (saturating) exactly when it and all
nodes below it on the path were unmarked, and it is untouched otherwise. -/
theorem cascadeAux_char : ∀ (p : List Nat) (t : Node K V) (j : Nat),
    j ≤ p.length → ∀ a : Node K V, getAt t (p.take j) = some a →
    ∃ b, getAt ((cascadeAux t p).1) (p.take j) = some b ∧
      b.id = a.id ∧ b.key = a.key ∧ b.val = a.val ∧
      (sufUnmarked a (p.drop j) = true →
        b.isMarked = true ∧ b.rank = a.rank - 1) ∧
      (sufUnmarked a (p.drop j) = false →
        b.isMarked = a.isMarked ∧ b.rank = a.rank)
  | p, t, 0 => by
    intro hj a hget
    rw [List.take_zero, getAt_nil, Option.some.injEq] at hget
    subst hget
    obtain ⟨hids, htop⟩ := cascadeAux_top p t
    refine ⟨(cascadeAux t p).1, by rw [List.take_zero, getAt_nil],
      hids.1, hids.2.1, hids.2.2, ?_, ?_⟩
    · rw [List.drop_zero]
      exact htop.1
    · rw [List.drop_zero]
      exact htop.2
  | [], t, j + 1 => by
    intro hj
    simp at hj
  | jj :: p, t, j + 1 => by
    intro hj a hget
    rw [List.take_succ_cons, getAt_cons] at hget
    cases hjj : t.children[jj]? with
    | none =>
      rw [hjj] at hget
      cases hget
    | some c =>
      rw [hjj] at hget
      have hlen : j ≤ p.length := by simpa using hj
      obtain ⟨b, hb, hbid, hbkey, hbval, hbt, hbf⟩ :=
        cascadeAux_char p c j hlen a hget
      have hvalid : jj < t.children.length := (List.getElem?_eq_some.mp hjj).1
      have hdrop : (jj :: p).drop (j + 1) = p.drop j := rfl
      rw [cascadeAux]
      simp only [hjj]
      have hgetset : ∀ m : Bool, ∀ r : Nat,
          getAt (Node.mk t.id t.key t.val r m
            (t.children.set jj (cascadeAux c p).1)) ((jj :: p).take (j + 1))
          = getAt ((cascadeAux c p).1) (p.take j) := by
        intro m r
        rw [List.take_succ_cons, getAt_cons]
        simp only [Node.children_mk, List.getElem?_set_self hvalid]
      refine ⟨b, ?_, hbid, hbkey, hbval, by rw [hdrop]; exact hbt,
        by rw [hdrop]; exact hbf⟩
      split
      · split
        · rw [hgetset]
          exact hb
        · have hT : (Node.mk t.id t.key t.val t.rank t.isMarked
              (t.children.set jj (cascadeAux c p).1)).cascadeTouch
              = Node.mk t.id t.key t.val (t.rank - 1) true
                (t.children.set jj (cascadeAux c p).1) := by
            rw [Node.cascadeTouch]
          rw [hT, hgetset]
          exact hb
      · rw [hgetset]
        exact hb

/-! ## Pointer-level model

The ownership-tree model elides the back-pointer fields.  For the claims
that are specifically about `parent`/`prev`/`next` maintenance, the same
functions are modelled over an explicit memory of nodes addressed by
`Nat`, each holding every link field of `struct Node` as an
`Option Nat`. -/

/-- Pointer-level node: all link fields explicit. -/
structure PNode (K : Type) where
  key : K
  rank : Nat
  isMarked : Bool
  parent : Option Nat
  firstChild : Option Nat
  prev : Option Nat
  next : Option Nat

/-- A memory of heap nodes. -/
def PMem (K : Type) := Nat → Option (PNode K)

/-- Allocate / overwrite the node at address `i`. -/
def pWrite (m : PMem K) (i : Nat) (n : PNode K) : PMem K :=
  fun j => if j = i then some n else m j

/-- Mutate the node at address `i` in place. -/
def pUpd (m : PMem K) (i : Nat) (f : PNode K → PNode K) : PMem K :=
  fun j => if j = i then (m j).map f else m j

theorem pUpd_at (m : PMem K) (i : Nat) (f : PNode K → PNode K) :
    pUpd m i f i = (m i).map f := by
  rw [pUpd]
  simp

theorem pUpd_ne (m : PMem K) (i : Nat) (f : PNode K → PNode K) {j : Nat}
    (h : j ≠ i) : pUpd m i f j = m j := by
  rw [pUpd]
  simp [h]

/-- `add_child` at the pointer level, line for line: set `other`'s
`parent` to `this` and reset its `prev`/`next`; if `this` has a first
child, splice `other` in front of it; finally make `other` the first
child of `this`.  Returns `this` (the winner). -/
def pAddChild (m : PMem K) (this other : Nat) : PMem K × Nat :=
  let m1 := pUpd m other fun n =>
    { n with parent := some this, prev := none, next := none }
  let m2 :=
    match (m1 this).bind PNode.firstChild with
    | none => m1
    | some fc =>
      let m1a := pUpd m1 other fun n => { n with next := some fc }
      pUpd m1a fc fun n => { n with prev := some other }
  (pUpd m2 this fun n => { n with firstChild := some other }, this)

variable [LinearOrder K]

/-- `naive_link` at the pointer level.  The fallback arm models the
undefined behaviour of dangling arguments and is never taken under the
claims' hypotheses. -/
def pNaiveLink (m : PMem K) (this other : Nat) : PMem K × Nat :=
  match m this, m other with
  | some tn, some om =>
    if tn.key < om.key then pAddChild m this other else pAddChild m other this
  | _, _ => (m, this)

/-- `unlink` at the pointer level: fix the parent's `first_child` and the
siblings' `prev`/`next` around the gap.  The node's own `parent` field is
not written (as in the source). -/
def pUnlink (m : PMem K) (this : Nat) : PMem K :=
  match m this with
  | none => m
  | some tn =>
    match tn.parent with
    | none => m
    | some par =>
      let m1 := if (m par).bind PNode.firstChild = some this
        then pUpd m par fun n => { n with firstChild := tn.next }
        else m
      let m2 :=
        match tn.prev with
        | none => m1
        | some pv => pUpd m1 pv fun n => { n with next := tn.next }
      match tn.next with
      | none => m2
      | some nx => pUpd m2 nx fun n => { n with prev := tn.prev }

/-- `cascade_decrease_rank` at the pointer level, totalised with fuel:
the recursion climbs `parent` pointers (well-founded in any actual heap);
every use below supplies sufficient fuel. -/
def pCascade (m : PMem K) (this : Nat) : Nat → PMem K
  | 0 => m
  | fuel + 1 =>
    match m this with
    | none => m
    | some tn =>
      if tn.isMarked then m
      else
        let m1 := pUpd m this fun n =>
          { n with isMarked := true, rank := n.rank - 1 }
        match tn.parent with
        | none => m1
        | some par => pCascade m1 par fuel

/-- `Entry::decrease_key` at the pointer level (node/link structure only;
the key index is bookkeeping on the heap object, not on nodes).  `root`
is the current heap root; `none` models the `assert!` panic or a dangling
handle. -/
def pDecreaseKey (m : PMem K) (root nodeId : Nat) (newKey : K)
    (fuel : Nat) : Option (PMem K × Nat) :=
  match m nodeId with
  | none => none
  | some nn =>
    if nn.key < newKey then none
    else
      let m1 := pUpd m nodeId fun n => { n with key := newKey }
      if root = nodeId then some (m1, root)
      else
        let m2 := pUpd m1 root fun n => { n with isMarked := true }
        let m3 := pCascade m2 nodeId fuel
        let m4 := pUnlink m3 nodeId
        some (pNaiveLink m4 root nodeId)

/-- `Feap::insert` at the pointer level: allocate a fresh node and link
it with the root; returns the memory, new root and allocation counter. -/
def pInsertHeap (m : PMem K) (root : Option Nat) (nextId : Nat) (k : K) :
    PMem K × Nat × Nat :=
  let m1 := pWrite m nextId ⟨k, 0, false, none, none, none, none⟩
  match root with
  | none => (m1, nextId, nextId + 1)
  | some r =>
    let q := pNaiveLink m1 r nextId
    (q.1, q.2, nextId + 1)

theorem pUpd_rank_pres (f : PNode K → PNode K)
    (hf : ∀ n, (f n).rank = n.rank) {m : PMem K} {i x : Nat} :
    ((pUpd m i f) x).map PNode.rank = (m x).map PNode.rank := by
  rw [pUpd]
  split
  · cases m x <;> simp [hf]
  · rfl

theorem pAddChild_rank (m : PMem K) (a b x : Nat) :
    ((pAddChild m a b).1 x).map PNode.rank = (m x).map PNode.rank := by
  rw [pAddChild]
  simp only
  cases hfc : ((pUpd m b fun n =>
      { n with parent := some a, prev := none, next := none }) a).bind
      PNode.firstChild with
  | none =>
    simp only [hfc]
    rw [pUpd_rank_pres (fun n => { n with firstChild := some b })
        (fun n => rfl),
      pUpd_rank_pres (fun n =>
        { n with parent := some a, prev := none, next := none })
        (fun n => rfl)]
  | some fc =>
    simp only [hfc]
    rw [pUpd_rank_pres (fun n => { n with firstChild := some b })
        (fun n => rfl),
      pUpd_rank_pres (fun n => { n with prev := some b }) (fun n => rfl),
      pUpd_rank_pres (fun n => { n with next := some fc }) (fun n => rfl),
      pUpd_rank_pres (fun n =>
        { n with parent := some a, prev := none, next := none })
        (fun n => rfl)]

theorem pAddChild_loser {m : PMem K} {a b : Nat} {nb : PNode K}
    (hab : a ≠ b) (hb : m b = some nb) :
    ∃ nb', (pAddChild m a b).1 b = some nb' ∧ nb'.parent = some a ∧
      nb'.key = nb.key ∧ nb'.rank = nb.rank := by
  rw [pAddChild]
  simp only
  rw [pUpd_ne _ _ _ (Ne.symm hab)]
  cases hfc : ((pUpd m b fun n =>
      { n with parent := some a, prev := none, next := none }) a).bind
      PNode.firstChild with
  | none =>
    simp only [hfc]
    rw [pUpd_at, hb]
    exact ⟨_, rfl, rfl, rfl, rfl⟩
  | some fc =>
    simp only [hfc]
    by_cases hfb : b = fc
    · subst hfb
      rw [pUpd_at, pUpd_at, pUpd_at, hb]
      exact ⟨_, rfl, rfl, rfl, rfl⟩
    · rw [pUpd_ne _ _ _ hfb, pUpd_at, pUpd_at, hb]
      exact ⟨_, rfl, rfl, rfl, rfl⟩

theorem pAddChild_winner {m : PMem K} {a b : Nat} {na : PNode K}
    (hab : a ≠ b) (ha : m a = some na) :
    ∃ na', (pAddChild m a b).1 a = some na' ∧ na'.firstChild = some b ∧
      na'.parent = na.parent ∧ na'.key = na.key ∧ na'.rank = na.rank := by
  rw [pAddChild]
  simp only
  rw [pUpd_at]
  cases hfc : ((pUpd m b fun n =>
      { n with parent := some a, prev := none, next := none }) a).bind
      PNode.firstChild with
  | none =>
    simp only [hfc]
    rw [pUpd_ne _ _ _ hab, ha]
    exact ⟨_, rfl, rfl, rfl, rfl, rfl⟩
  | some fc =>
    simp only [hfc]
    by_cases hfa : a = fc
    · subst hfa
      rw [pUpd_at, pUpd_ne _ _ _ hab, pUpd_ne _ _ _ hab, ha]
      exact ⟨_, rfl, rfl, rfl, rfl, rfl⟩
    · rw [pUpd_ne _ _ _ hfa, pUpd_ne _ _ _ hab, pUpd_ne _ _ _ hab, ha]
      exact ⟨_, rfl, rfl, rfl, rfl, rfl⟩

/-- The full pointer-level contract of `naive_link` (claim C4): the node
with the strictly smaller key wins; on equal keys the second argument
wins; the loser becomes the head of the winner's child list with its
`parent` set to the winner; no rank changes anywhere. -/
theorem pNaiveLink_contract {m : PMem K} {a b : Nat} {na nb : PNode K}
    (hab : a ≠ b) (ha : m a = some na) (hb : m b = some nb) :
    (na.key < nb.key →
      (pNaiveLink m a b).2 = a ∧
      (∃ nb', (pNaiveLink m a b).1 b = some nb' ∧ nb'.parent = some a) ∧
      (∃ na', (pNaiveLink m a b).1 a = some na' ∧ na'.firstChild = some b)) ∧
    (¬ na.key < nb.key →
      (pNaiveLink m a b).2 = b ∧
      (∃ na', (pNaiveLink m a b).1 a = some na' ∧ na'.parent = some b) ∧
      (∃ nb', (pNaiveLink m a b).1 b = some nb' ∧ nb'.firstChild = some a)) ∧
    (∀ x, ((pNaiveLink m a b).1 x).map PNode.rank = (m x).map PNode.rank) := by
  rw [pNaiveLink]
  simp only [ha, hb]
  by_cases hlt : na.key < nb.key
  · rw [if_pos hlt]
    refine ⟨fun _ => ⟨rfl, ?_, ?_⟩, fun hc => absurd hlt hc, pAddChild_rank m a b⟩
    · obtain ⟨nb', h1, h2, -⟩ := pAddChild_loser hab hb
      exact ⟨nb', h1, h2⟩
    · obtain ⟨na', h1, h2, -⟩ := pAddChild_winner hab ha
      exact ⟨na', h1, h2⟩
  · rw [if_neg hlt]
    refine ⟨fun hc => absurd hc hlt, fun _ => ⟨rfl, ?_, ?_⟩,
      pAddChild_rank m b a⟩
    · obtain ⟨na', h1, h2, -⟩ := pAddChild_loser (Ne.symm hab) ha
      exact ⟨na', h1, h2⟩
    · obtain ⟨nb', h1, h2, -⟩ := pAddChild_winner (Ne.symm hab) hb
      exact ⟨nb', h1, h2⟩

/-- `naive_link` does not write the winner's `parent` field: a promoted
node keeps whatever `parent` it had (claim C8, amended part). -/
theorem pNaiveLink_winner_parent {m : PMem K} {a b : Nat} {na nb : PNode K}
    (hab : a ≠ b) (ha : m a = some na) (hb : m b = some nb) :
    ((¬ na.key < nb.key) →
      ∃ nb', (pNaiveLink m a b).1 b = some nb' ∧ nb'.parent = nb.parent) ∧
    (na.key < nb.key →
      ∃ na', (pNaiveLink m a b).1 a = some na' ∧ na'.parent = na.parent) := by
  rw [pNaiveLink]
  simp only [ha, hb]
  by_cases hlt : na.key < nb.key
  · rw [if_pos hlt]
    refine ⟨fun hc => absurd hlt hc, fun _ => ?_⟩
    obtain ⟨na', h1, -, h3, -⟩ := pAddChild_winner hab ha
    exact ⟨na', h1, h3⟩
  · rw [if_neg hlt]
    refine ⟨fun _ => ?_, fun hc => absurd hc hlt⟩
    obtain ⟨nb', h1, -, h3, -⟩ := pAddChild_winner (Ne.symm hab) hb
    exact ⟨nb', h1, h3⟩

/-! ## Claim theorems -/

/-- C1: in every heap state reachable through the public operations,
`get_min` returns a key/value pair of a live node whose key is a minimum
among all live keys, and returns the empty signal exactly when the size
is `0`. -/
theorem claim_getMin_correct {h : Heap K V} (hre : Reachable h) :
    (h.getMin = none ↔ h.len = 0) ∧
    (∀ k v, h.getMin = some (k, v) →
      (∃ i, (i, k, v) ∈ h.elems) ∧ ∀ e ∈ h.elems, k ≤ e.2.1) := by
  have hi := Inv_reachable hre
  cases hr : h.root with
  | none =>
    refine ⟨⟨fun _ => ?_, fun _ => ?_⟩, ?_⟩
    · rw [hi.len_eq, elemsM_of_none hr]
      rfl
    · rw [Heap.getMin, hr]
      rfl
    · intro k v hkv
      rw [Heap.getMin, hr] at hkv
      cases hkv
  | some r =>
    refine ⟨⟨fun hmin => ?_, fun hlen => ?_⟩, ?_⟩
    · rw [Heap.getMin, hr] at hmin
      cases hmin
    · exfalso
      rw [hi.len_eq, elemsM_of_some hr, ME_eq_head_add] at hlen
      simp at hlen
    · intro k v hkv
      rw [Heap.getMin, hr] at hkv
      simp only [Option.map_some', Option.some.injEq, Prod.mk.injEq] at hkv
      obtain ⟨hk, hv⟩ := hkv
      subst hk hv
      constructor
      · refine ⟨r.id, ?_⟩
        rw [Heap.elems, hr]
        cases r with
        | mk i k v rk m cs => simp
      · intro e he
        rw [Heap.elems, hr] at he
        exact (hi.ord r hr).key_le_entries e he

/-- C2: `delete_min` on an empty heap returns the empty signal and leaves
the heap unchanged; on a non-empty heap it returns the root's key/value,
decrements the length, sets the new root to the consolidation of the old
root's children (rank-table fair-linking, then a fold of the surviving
table values by `naive_link`), and the new heap holds exactly the old
root's children's entries. -/
theorem claim_deleteMin_behaviour {h : Heap K V} (hi : Inv h) :
    (h.root = none → h.deleteMin = (none, h)) ∧
    (∀ r, h.root = some r →
      (h.deleteMin).1 = some (r.key, r.val) ∧
      (h.deleteMin).2.len = h.len - 1 ∧
      (h.deleteMin).2.root = (if r.children.isEmpty then none
        else reduceLink ((consolidate r.children []).map fun e => e.2)) ∧
      (h.deleteMin).2.elemsM = MEL r.children) := by
  refine ⟨fun hr => deleteMin_of_none hr, fun r hr => ?_⟩
  refine ⟨?_, ?_, ?_, (deleteMin_newRoot hr (hi.ord r hr)).1⟩
  · rw [deleteMin_of_some hr]
  · rw [deleteMin_of_some hr]
  · rw [deleteMin_of_some hr]

/-- C6: for a live node in a non-empty heap, `decrease_key` panics
exactly when the new key is strictly greater than the node's current key;
otherwise it succeeds and overwrites that node's key in place (same
address, same value, new key; everything else untouched). -/
theorem claim_decreaseKey_contract {h : Heap K V} {r n : Node K V}
    {p : List Nat} (k' : K) (hr : h.root = some r)
    (hget : getAt r p = some n) (hi : Inv h) :
    (h.decreaseKey p k' = none ↔ n.key < k') ∧
    (¬ n.key < k' → ∃ h' W, h.decreaseKey p k' = some h' ∧
      h.elemsM = {(n.id, n.key, n.val)} + W ∧
      h'.elemsM = {(n.id, k', n.val)} + W ∧ h'.len = h.len) := by
  constructor
  · constructor
    · intro hnone
      by_contra hk
      obtain ⟨h', hdk, -⟩ := decreaseKey_spec hr hget hk hi
      rw [hdk] at hnone
      cases hnone
    · intro hlt
      rw [Heap.decreaseKey.eq_def, hr]
      simp only [hget, if_pos hlt]
  · intro hk
    obtain ⟨h', hdk, W, hold, hnew, -, hlen, -⟩ :=
      decreaseKey_spec hr hget hk hi
    exact ⟨h', W, hdk, hold, hnew, hlen⟩

/-- C7: `merge` returns the other heap when either input is empty (in the
source's match order); otherwise the result's root is the `naive_link` of
the two roots, the lengths add, and (for heap-ordered inputs) the
resulting minimum key is the minimum of the two roots' keys and bounds
every live key. -/
theorem claim_merge_contract (a b : Heap K V) :
    (a.root = none → a.merge b = b) ∧
    (∀ ra, a.root = some ra → b.root = none → a.merge b = a) ∧
    (∀ ra rb, a.root = some ra → b.root = some rb →
      (a.merge b).root = some (naive_link ra rb) ∧
      (a.merge b).len = a.len + b.len ∧
      (HeapOrd ra → HeapOrd rb →
        ((a.merge b).getMin).map Prod.fst = some (min ra.key rb.key) ∧
        ∀ e ∈ (a.merge b).elemsM, min ra.key rb.key ≤ e.2.1)) := by
  refine ⟨fun hra => by rw [Heap.merge, hra], ?_, ?_⟩
  · intro ra hra hrb
    rw [Heap.merge, hra, hrb]
  · intro ra rb hra hrb
    have hm : a.merge b = Heap.mk (some (naive_link ra rb))
        (a.len + b.len) (a.nodes ∪ b.nodes) (max a.nextId b.nextId) := by
      rw [Heap.merge, hra, hrb]
    refine ⟨by rw [hm], by rw [hm], ?_⟩
    intro hoa hob
    constructor
    · rw [Heap.getMin, hm]
      simp only [Option.map_some']
      rw [naive_link_key]
    · intro e he
      rw [elemsM_of_some (show (a.merge b).root = some (naive_link ra rb)
        from by rw [hm]), ME_naive_link] at he
      rcases Multiset.mem_add.mp he with he | he
      · rw [ME, Multiset.mem_coe] at he
        exact le_trans (min_le_left _ _) (hoa.key_le_entries e he)
      · rw [ME, Multiset.mem_coe] at he
        exact le_trans (min_le_right _ _) (hob.key_le_entries e he)

/-- C9 (amended): `Entry::delete` on a live node of a non-empty heap
removes exactly that node's entry and decrements the length; only the
updated heap state is produced — the removed key/value pair returned by
the inner `delete_min` is discarded, not returned to the caller. -/
theorem claim_delete_removes {h : Heap K V} {r n : Node K V} {p : List Nat}
    (hr : h.root = some r) (hget : getAt r p = some n) (hi : Inv h) :
    ∃ h', h.deleteEntry p = some h' ∧
      h'.elemsM + {(n.id, n.key, n.val)} = h.elemsM ∧
      h'.len = h.len - 1 := by
  obtain ⟨h', hde, helems, -, hlen, -⟩ := deleteEntry_spec hr hget hi
  exact ⟨h', hde, helems, hlen⟩

/-- C10: in every reachable heap state the key-to-node index holds
exactly the (key, address) pairs of the live nodes (each node filed under
its current key), and live addresses are pairwise distinct — the
invariant the `Drop` teardown relies on to free every node exactly
once. -/
theorem claim_index_invariant {h : Heap K V} (hre : Reachable h) :
    h.nodes = (h.elemsM.map fun e => (e.2.1, e.1)).toFinset ∧
    (h.elemsM.map fun e => e.1).Nodup :=
  ⟨(Inv_reachable hre).idx, (Inv_reachable hre).nodup⟩

/-- C3 (amended): in `decrease_key`'s cascade, the walk starts at the
node itself and climbs parents; each visited unmarked node is marked and
its rank decremented by one saturating at zero, and the walk continues;
it stops at the first already-marked node, leaving it untouched.  Hence
a node on the handle's path is touched exactly when it and every node
below it on the path were unmarked, and the walk escapes past the top
exactly when the whole chain was unmarked. -/
theorem claim_cascade_behaviour {p : List Nat} {t : Node K V} {j : Nat}
    (hj : j ≤ p.length) {a : Node K V} (hget : getAt t (p.take j) = some a) :
    ((cascadeAux t p).2 = sufUnmarked t p) ∧
    ∃ b, getAt ((cascadeAux t p).1) (p.take j) = some b ∧
      b.id = a.id ∧ b.key = a.key ∧ b.val = a.val ∧
      (sufUnmarked a (p.drop j) = true →
        b.isMarked = true ∧ b.rank = a.rank - 1) ∧
      (sufUnmarked a (p.drop j) = false →
        b.isMarked = a.isMarked ∧ b.rank = a.rank) :=
  ⟨cascadeAux_flag p t, cascadeAux_char p t j hj a hget⟩

/-! ## Concrete scenarios, counterexamples and witnesses -/

/-- The heap obtained by inserting keys 4, 2, 7 into an empty heap.  Its
root is the key-2 node (address 1) whose child chain is the key-7 node
(address 2, at position `[0]`) followed by the key-4 node (address 0). -/
def scenario427 : Heap Int Unit := ((Heap.new.insert 4 ()).insert 2 ()).insert 7 ()

theorem scenario427_reachable : Reachable scenario427 :=
  Reachable.insert 7 () (Reachable.insert 2 () (Reachable.insert 4 () Reachable.new))

/-- C5: after inserting 4, 2, 7, deleting the handle for 7 (path `[0]`)
leaves size 2 with exactly the keys 2 and 4 live, and the two subsequent
`delete_min` calls return keys 2 then 4. -/
theorem claim_delete_scenario :
    (scenario427.root.bind fun r => (getAt r [0]).map Node.key) = some 7 ∧
    (scenario427.deleteEntry [0]).map Heap.len = some 2 ∧
    (scenario427.deleteEntry [0]).map Heap.elems = some [(1, 2, ()), (0, 4, ())] ∧
    (scenario427.deleteEntry [0]).map (fun h' =>
      ((h'.deleteMin).1.map Prod.fst,
       ((h'.deleteMin).2.deleteMin).1.map Prod.fst)) = some (some 2, some 4) := by
  decide

/-- C3 (counterexample): decreasing the key-7 node (path `[0]`) of the
4/2/7 heap to 3 leaves the old root (address 1, key 2, still the root)
with its mark SET, not cleared, and also marks the decreased node itself
(the walk starts at the node, not at its former parent). -/
theorem claim_cascade_counterexample :
    ((scenario427.decreaseKey [0] 3).map fun h' =>
      (h'.root.map fun r => (r.id, r.key, r.isMarked),
       h'.root.bind fun r => (getAt r [0]).map fun n => (n.id, n.key, n.isMarked)))
      = some (some (1, 2, true), some (2, 3, true)) ∧
    ((scenario427.decreaseKey [0] 3).map fun h' =>
      h'.root.map fun r => r.isMarked) ≠ some (some false) := by
  decide

/-- Pointer-level replay of inserting 4, 2, 7 (addresses 0, 1, 2; root 1)
followed by the decrease-to-root-key step of `Entry::delete` on the
key-7 node (address 2). -/
def pScenario : Option (PMem Int × Nat) :=
  let s1 := pInsertHeap (fun _ => none) none 0 (4 : Int)
  let s2 := pInsertHeap s1.1 (some s1.2.1) s1.2.2 2
  let s3 := pInsertHeap s2.1 (some s2.2.1) s2.2.2 7
  pDecreaseKey s3.1 s3.2.1 2 2 4

/-- C8 (counterexample): after the decrease-key promotion, the new root
(address 2) still carries `parent = Some 1` — a stale pointer to its old
parent — not `None` as the claim states. -/
theorem claim_root_parent_counterexample :
    (pScenario.map fun q => (q.2, (q.1 q.2).map PNode.parent))
      = some (2, some (some 1)) ∧
    (pScenario.map fun q => (q.1 q.2).map PNode.parent) ≠ some (some none) := by
  decide

/-- C9 (counterexample): deleting the second-inserted node from the heaps
`[1, 2]` and `[1, 3]` produces bitwise-identical heap states although the
removed elements (keys 2 and 3) differ — `Entry::delete`'s result cannot
contain the removed key/payload, so nothing is returned to the caller. -/
theorem claim_delete_returns_counterexample :
    ((((Heap.new.insert (1:Int) ()).insert 2 ()).deleteEntry [0]).map fun h =>
      (h.elems, h.len, h.nodes, h.nextId))
      = ((((Heap.new.insert (1:Int) ()).insert 3 ()).deleteEntry [0]).map fun h =>
      (h.elems, h.len, h.nodes, h.nextId)) ∧
    (((Heap.new.insert (1:Int) ()).insert 2 ()).root.bind fun r =>
      (getAt r [0]).map Node.key) = some 2 ∧
    (((Heap.new.insert (1:Int) ()).insert 3 ()).root.bind fun r =>
      (getAt r [0]).map Node.key) = some 3 := by
  refine ⟨by decide, by decide, by decide⟩

theorem claim_getMin_correct_witness :
    (scenario427.getMin = none ↔ scenario427.len = 0) ∧
    (∀ k v, scenario427.getMin = some (k, v) →
      (∃ i, (i, k, v) ∈ scenario427.elems) ∧
      ∀ e ∈ scenario427.elems, k ≤ e.2.1) :=
  claim_getMin_correct scenario427_reachable

theorem claim_deleteMin_behaviour_witness :
    (scenario427.root = none → scenario427.deleteMin = (none, scenario427)) ∧
    (∀ r, scenario427.root = some r →
      (scenario427.deleteMin).1 = some (r.key, r.val) ∧
      (scenario427.deleteMin).2.len = scenario427.len - 1 ∧
      (scenario427.deleteMin).2.root = (if r.children.isEmpty then none
        else reduceLink ((consolidate r.children []).map fun e => e.2)) ∧
      (scenario427.deleteMin).2.elemsM = MEL r.children) :=
  claim_deleteMin_behaviour (Inv_reachable scenario427_reachable)

/-- The 4/2/7 heap's root tree, with the key-7 node at position `[0]`. -/
def demoTree : Node Int Unit :=
  Node.mk 1 2 () 0 false [Node.mk 2 7 () 0 false [], Node.mk 0 4 () 0 false []]

theorem claim_cascade_behaviour_witness :
    ((cascadeAux demoTree [0]).2 = sufUnmarked demoTree [0]) ∧
    ∃ b, getAt ((cascadeAux demoTree [0]).1) ([0].take 1) = some b ∧
      b.id = (Node.mk 2 7 () 0 false [] : Node Int Unit).id ∧
      b.key = (Node.mk 2 7 () 0 false [] : Node Int Unit).key ∧
      b.val = (Node.mk 2 7 () 0 false [] : Node Int Unit).val ∧
      (sufUnmarked (Node.mk 2 7 () 0 false [] : Node Int Unit)
          ([0].drop 1) = true →
        b.isMarked = true ∧
        b.rank = (Node.mk 2 7 () 0 false [] : Node Int Unit).rank - 1) ∧
      (sufUnmarked (Node.mk 2 7 () 0 false [] : Node Int Unit)
          ([0].drop 1) = false →
        b.isMarked = (Node.mk 2 7 () 0 false [] : Node Int Unit).isMarked ∧
        b.rank = (Node.mk 2 7 () 0 false [] : Node Int Unit).rank) :=
  claim_cascade_behaviour (show 1 ≤ [0].length by decide)
    (show getAt demoTree ([0].take 1) = some (Node.mk 2 7 () 0 false [])
      from rfl)

/-- Two-node memory with equal keys 5, exercising the tie-break. -/
def pmWitness : PMem Int :=
  pWrite (pWrite (fun _ => none) 0 ⟨5, 0, false, none, none, none, none⟩)
    1 ⟨5, 1, true, none, some 7, none, none⟩

theorem pNaiveLink_contract_witness :
    ((5:Int) < 5 →
      (pNaiveLink pmWitness 0 1).2 = 0 ∧
      (∃ nb', (pNaiveLink pmWitness 0 1).1 1 = some nb' ∧ nb'.parent = some 0) ∧
      (∃ na', (pNaiveLink pmWitness 0 1).1 0 = some na' ∧ na'.firstChild = some 1)) ∧
    (¬ (5:Int) < 5 →
      (pNaiveLink pmWitness 0 1).2 = 1 ∧
      (∃ na', (pNaiveLink pmWitness 0 1).1 0 = some na' ∧ na'.parent = some 1) ∧
      (∃ nb', (pNaiveLink pmWitness 0 1).1 1 = some nb' ∧ nb'.firstChild = some 0)) ∧
    (∀ x, ((pNaiveLink pmWitness 0 1).1 x).map PNode.rank
      = (pmWitness x).map PNode.rank) :=
  pNaiveLink_contract (show (0:Nat) ≠ 1 by decide)
    (show pmWitness 0 = some ⟨5, 0, false, none, none, none, none⟩ from rfl)
    (show pmWitness 1 = some ⟨5, 1, true, none, some 7, none, none⟩ from rfl)

theorem claim_decreaseKey_contract_witness :
    (scenario427.decreaseKey [0] 5 = none ↔ (7:Int) < 5) ∧
    (¬ (7:Int) < 5 → ∃ h' W, scenario427.decreaseKey [0] 5 = some h' ∧
      scenario427.elemsM = {(2, (7:Int), ())} + W ∧
      h'.elemsM = {(2, (5:Int), ())} + W ∧ h'.len = scenario427.len) :=
  claim_decreaseKey_contract 5 (show scenario427.root = some demoTree from rfl)
    (show getAt demoTree [0] = some (Node.mk 2 7 () 0 false []) from rfl)
    (Inv_reachable scenario427_reachable)

theorem claim_merge_contract_witness :
    ((Heap.new.insert (3:Int) ()).merge (Heap.new.insert 5 ())).root
      = some (naive_link (Node.mk 0 3 () 0 false []) (Node.mk 0 5 () 0 false [])) ∧
    ((Heap.new.insert (3:Int) ()).merge (Heap.new.insert 5 ())).len = 1 + 1 ∧
    (((Heap.new.insert (3:Int) ()).merge (Heap.new.insert 5 ())).getMin).map
      Prod.fst = some (min (3:Int) 5) ∧
    ∀ e ∈ ((Heap.new.insert (3:Int) ()).merge (Heap.new.insert 5 ())).elemsM,
      min (3:Int) 5 ≤ e.2.1 := by
  have h := (claim_merge_contract (Heap.new.insert (3:Int) ())
    (Heap.new.insert 5 ())).2.2 (Node.mk 0 3 () 0 false [])
    (Node.mk 0 5 () 0 false []) rfl rfl
  exact ⟨h.1, h.2.1,
    (h.2.2 (heapOrd_leaf _ _ _ _ _) (heapOrd_leaf _ _ _ _ _)).1,
    (h.2.2 (heapOrd_leaf _ _ _ _ _) (heapOrd_leaf _ _ _ _ _)).2⟩

theorem pNaiveLink_winner_parent_witness :
    ((¬ (5:Int) < 5) →
      ∃ nb', (pNaiveLink pmWitness 0 1).1 1 = some nb' ∧ nb'.parent = none) ∧
    ((5:Int) < 5 →
      ∃ na', (pNaiveLink pmWitness 0 1).1 0 = some na' ∧ na'.parent = none) :=
  pNaiveLink_winner_parent (show (0:Nat) ≠ 1 by decide)
    (show pmWitness 0 = some ⟨5, 0, false, none, none, none, none⟩ from rfl)
    (show pmWitness 1 = some ⟨5, 1, true, none, some 7, none, none⟩ from rfl)

theorem claim_delete_removes_witness :
    ∃ h', scenario427.deleteEntry [0] = some h' ∧
      h'.elemsM + {(2, (7:Int), ())} = scenario427.elemsM ∧
      h'.len = scenario427.len - 1 :=
  claim_delete_removes (show scenario427.root = some demoTree from rfl)
    (show getAt demoTree [0] = some (Node.mk 2 7 () 0 false []) from rfl)
    (Inv_reachable scenario427_reachable)

theorem claim_index_invariant_witness :
    scenario427.nodes = (scenario427.elemsM.map fun e => (e.2.1, e.1)).toFinset ∧
    (scenario427.elemsM.map fun e => e.1).Nodup :=
  claim_index_invariant scenario427_reachable

end Feap
